import Mathlib

/-!
# tiletoy: edge-matching grid fill

A shallow embedding of `main.go` of `orrche/tiletoy` and theorems about it.

Modelling conventions.

* Go `int` is `Int`. The only arithmetic on coordinates is `x ± 1`, `y ± 1` and the
  index `x + y*width` of an in-bounds cell, all bounded by the size of the allocated
  grid. The one place where an unvalidated value of the configuration enters an
  addition is `int(s) + tile.rotation` in `getEdge`; it is wrapped to 64 bits there.
  Go's `%` truncates towards zero, which is `Int.tmod`.
* A run-time panic (index out of range) is the outer `none` of an `Option`.
  A `*Tile` that may be `nil` is an inner `Option Tile`.
* In the fill, `float64` weights and the draw of `rand.Float64()` are exact rationals;
  the random source is a stream `Nat → ℚ` and the fill state counts the draws it has
  consumed. Which candidate the scan picks is stated over this idealisation; consistency,
  scan-order visibility and grid contents do not depend on which one it picks. The catalog loop, which only
  compares a weight with 0, is modelled on `Float64`, with NaN and the infinities.
* The `image` field of a tile is only read by the rendering loop and is left out; of
  the file open and image decode of the catalog loop only success or panic is kept.
* "The moment cell `(x, y)` is processed" is `fillBefore`: the state after the columns
  `0..x-1` and the cells `0..y-1` of column `x`; the loop ends in the moment `(width, 0)`.
-/

namespace Tiletoy

/-- Tile: the struct `Tile` of the source, without its `image` field. -/
structure Tile where
  Filename : String
  Edges : List Int
  Rotations : List Int
  rotation : Int
  Weight : ℚ
deriving DecidableEq

/-- The zero value `Tile{}` of Go. -/
def Tile.zero : Tile :=
  { Filename := "", Edges := [], Rotations := [], rotation := 0, Weight := 0 }

instance : Inhabited Tile := ⟨Tile.zero⟩

/-- Map: the struct `Map` of the source; `tileMap` is row-major, index `x + y*width`. -/
structure Map where
  tileMap : List Tile
  width : Int
  height : Int
deriving DecidableEq

/-- The type `side` of the source is an `int`. -/
abbrev side := Int

/-- Source: `up side = 0`. -/
def up : side := 0

/-- Source: `right side = 1`. -/
def right : side := 1

/-- Source: `down side = 2`. -/
def down : side := 2

/-- Source: `left side = 3`. -/
def left : side := 3

/-- Wrap an integer to the range of a signed 64-bit Go `int`. -/
def wrapInt (v : Int) : Int := (v + 2 ^ 63) % 2 ^ 64 - 2 ^ 63

/-- Slice indexing `xs[i]` of Go: panics (`none`) when `i` is negative or too large. -/
def index {α : Type} (xs : List α) (i : Int) : Option α :=
  if i < 0 then none else xs[i.toNat]?

/-- Source: `getEdge`: `tile.Edges[(int(s)+tile.rotation)%4]`. -/
def getEdge (s : side) (tile : Tile) : Option Int :=
  index tile.Edges (Int.tmod (wrapInt (s + tile.rotation)) 4)

/-- The local `empty` of `getTile`: `Tile{}` with `Edges = []int{0,0,0,0}`. -/
def empty : Tile := { Tile.zero with Edges := [0, 0, 0, 0] }

/-- Source: `getTile`. Outer `none`: panic; `some none`: the `nil` pointer. -/
def getTile (m : Map) (x y : Int) : Option (Option Tile) :=
  if x < 0 ∨ x ≥ m.width then some (some empty)
  else if y < 0 ∨ y ≥ m.height then some (some empty)
  else
    match index m.tileMap (x + y * m.width) with
    | none => none
    | some t => if t.Filename = "" then some none else some (some t)

/-- One guard of `possibleTiles`:
`nb != nil && getEdge(s, tile) != getEdge(o, *nb)`. -/
def edgeMismatch (nb : Option Tile) (s : side) (tile : Tile) (o : side) : Option Bool :=
  match nb with
  | none => some false
  | some n =>
    match getEdge s tile with
    | none => none
    | some a =>
      match getEdge o n with
      | none => none
      | some b => some (a != b)

/-- The four guards of the inner loop body of `possibleTiles`, in source order
(up, down, left, right); `some true` when the body reaches `append`. -/
def admitted (upTile leftTile downTile rightTile : Option Tile) (tile : Tile) : Option Bool :=
  match edgeMismatch upTile up tile down with
  | none => none
  | some true => some false
  | some false =>
    match edgeMismatch downTile down tile up with
    | none => none
    | some true => some false
    | some false =>
      match edgeMismatch leftTile left tile right with
      | none => none
      | some true => some false
      | some false =>
        match edgeMismatch rightTile right tile left with
        | none => none
        | some true => some false
        | some false => some true

/-- The inner loop `for _, r := range tile.Rotations` of `possibleTiles`. -/
def rotationLoop (upTile leftTile downTile rightTile : Option Tile) (tile : Tile) :
    List Int → List Tile → Option (List Tile)
  | [], res => some res
  | r :: rs, res =>
    let tile := { tile with rotation := r }
    match admitted upTile leftTile downTile rightTile tile with
    | none => none
    | some true => rotationLoop upTile leftTile downTile rightTile tile rs (res ++ [tile])
    | some false => rotationLoop upTile leftTile downTile rightTile tile rs res

/-- The outer loop `for _, tile := range tiles` of `possibleTiles`. -/
def tileLoop (upTile leftTile downTile rightTile : Option Tile) :
    List Tile → List Tile → Option (List Tile)
  | [], res => some res
  | tile :: ts, res =>
    match rotationLoop upTile leftTile downTile rightTile tile tile.Rotations res with
    | none => none
    | some res' => tileLoop upTile leftTile downTile rightTile ts res'

/-- Source: `possibleTiles`. -/
def possibleTiles (m : Map) (tiles : List Tile) (x y : Int) : Option (List Tile) :=
  match getTile m x (y - 1) with
  | none => none
  | some upTile =>
    match getTile m (x - 1) y with
    | none => none
    | some leftTile =>
      match getTile m x (y + 1) with
      | none => none
      | some downTile =>
        match getTile m (x + 1) y with
        | none => none
        | some rightTile => tileLoop upTile leftTile downTile rightTile tiles []

/-- The loop `for _, t := range tiles { totWeight += t.Weight }` of `main`. -/
def totWeight : List Tile → ℚ
  | [] => 0
  | t :: ts => t.Weight + totWeight ts

/-- The selection scan of `main`: `selected -= t.Weight; if selected < 0 { ...; break }`.
Returns the index `i` at which the loop commits `tiles[i]`, or `none` when the loop
runs to its end without committing. -/
def selectScan : List Tile → ℚ → Nat → Option Nat
  | [], _, _ => none
  | t :: ts, selected, i =>
    if selected - t.Weight < 0 then some i else selectScan ts (selected - t.Weight) (i + 1)

/-- Slice store `xs[i] = v` of Go: panics (`none`) when `i` is out of range. -/
def store {α : Type} (xs : List α) (i : Int) (v : α) : Option (List α) :=
  if i < 0 then none else if i.toNat < xs.length then some (xs.set i.toNat v) else none

/-- State of the fill loop: the map and the number of draws taken from the random
source so far. -/
structure FillState where
  m : Map
  used : Nat
deriving DecidableEq

/-- The body of the fill loop of `main` at cell `(x, y)`. The draw is
`rand.Float64()`, here `draws s.used`. -/
def fillCell (tiles : List Tile) (draws : Nat → ℚ) (x y : Int) (s : FillState) :
    Option FillState :=
  match possibleTiles s.m tiles x y with
  | none => none
  | some cands =>
    let selected := draws s.used * totWeight cands
    match selectScan cands selected 0 with
    | none => some { m := s.m, used := s.used + 1 }
    | some i =>
      match index cands i with
      | none => none
      | some t =>
        match store s.m.tileMap (x + y * s.m.width) t with
        | none => none
        | some tm => some { m := { s.m with tileMap := tm }, used := s.used + 1 }

/-- The inner loop `for y := 0; y < m.height; y++` of the fill, over the remaining
values of `y`. -/
def fillColumn (tiles : List Tile) (draws : Nat → ℚ) (x : Int) :
    List Nat → FillState → Option FillState
  | [], s => some s
  | y :: ys, s =>
    match fillCell tiles draws x y s with
    | none => none
    | some s' => fillColumn tiles draws x ys s'

/-- The outer loop `for x := 0; x < m.width; x++` of the fill, over the remaining
values of `x`. -/
def fillRows (tiles : List Tile) (draws : Nat → ℚ) :
    List Nat → FillState → Option FillState
  | [], s => some s
  | x :: xs, s =>
    match fillColumn tiles draws x (List.range s.m.height.toNat) s with
    | none => none
    | some s' => fillRows tiles draws xs s'

/-- The fill loop of `main` (lines 152-169). -/
def fillLoop (tiles : List Tile) (draws : Nat → ℚ) (s : FillState) : Option FillState :=
  fillRows tiles draws (List.range s.m.width.toNat) s

/-- The map `main` allocates: `make([]Tile, width*height)`, every cell `Tile{}`. -/
def newMap (width height : Nat) : Map :=
  { tileMap := List.replicate (width * height) Tile.zero, width := width, height := height }

/-- The state in which the fill loop starts. -/
def start (width height : Nat) : FillState := { m := newMap width height, used := 0 }

/-! ## Predicates and specification-side definitions -/

/-- A value a `side` constant of the source can take. -/
abbrev isSide (s : Int) : Prop := 0 ≤ s ∧ s ≤ 3

/-- A placed tile that `getEdge` can read on every side: exactly 4 edge codes and a
rotation in {0,1,2,3}. -/
abbrev goodTile (t : Tile) : Prop := t.Edges.length = 4 ∧ 0 ≤ t.rotation ∧ t.rotation ≤ 3

/-- A catalog tile with exactly 4 edge codes and every allowed rotation in {0,1,2,3}. -/
abbrev goodEntry (t : Tile) : Prop := t.Edges.length = 4 ∧ ∀ r ∈ t.Rotations, 0 ≤ r ∧ r ≤ 3

/-- A catalog whose tiles have exactly 4 edges and rotations in {0,1,2,3}. -/
abbrev goodCatalog (tiles : List Tile) : Prop := ∀ t ∈ tiles, goodEntry t

/-- A validated catalog: as `goodCatalog`, and every tile has a non-empty `Filename`. -/
abbrev validCatalog (tiles : List Tile) : Prop := ∀ t ∈ tiles, t.Filename ≠ "" ∧ goodEntry t

/-- A map whose slice has `width*height` cells and whose resolved cells (non-empty
`Filename`) are readable by `getEdge`. -/
abbrev goodMap (m : Map) : Prop :=
  (m.tileMap.length : Int) = m.width * m.height ∧
    ∀ t ∈ m.tileMap, t.Filename ≠ "" → goodTile t

/-- Cell `(x, y)` lies in `[0,width) × [0,height)`. -/
abbrev inBounds (m : Map) (x y : Int) : Prop := 0 ≤ x ∧ x < m.width ∧ 0 ≤ y ∧ y < m.height

/-- The constraint a neighbour lookup puts on a candidate, in the words of the
specification: a lookup that returns a tile requires the candidate's edge on the shared
side `s` to equal the neighbour's edge on the opposite side `o`; a `nil` lookup
requires nothing. -/
def neighbourOk (lookup : Option (Option Tile)) (s : side) (cand : Tile) (o : side) : Bool :=
  match lookup with
  | some (some n) => getEdge s cand == getEdge o n
  | _ => true

/-- Admissibility of a candidate at `(x, y)`, in the words of the specification:
compatible with each of the four neighbours for which `getTile` returns a tile. -/
def admissible (m : Map) (x y : Int) (cand : Tile) : Bool :=
  neighbourOk (getTile m x (y - 1)) up cand down &&
  neighbourOk (getTile m x (y + 1)) down cand up &&
  neighbourOk (getTile m (x - 1) y) left cand right &&
  neighbourOk (getTile m (x + 1) y) right cand left

/-- The four tests of the specification, on lookups that did not panic. -/
def okAll (u l d r : Option Tile) (c : Tile) : Bool :=
  neighbourOk (some u) up c down && neighbourOk (some d) down c up &&
    neighbourOk (some l) left c right && neighbourOk (some r) right c left

/-- The copies of a catalog tile, one for each entry of its `Rotations`, in order. -/
def rotated (tile : Tile) : List Tile :=
  tile.Rotations.map (fun r => { tile with rotation := r })

/-- The candidate list in the words of the specification: catalog order, within one
tile the order of its `Rotations`, keeping the admissible copies. -/
def specPossibleTiles (m : Map) (tiles : List Tile) (x y : Int) : List Tile :=
  tiles.flatMap (fun tile => (rotated tile).filter (admissible m x y))

/-- A sample placed tile: edges 5,6,7,8 (up, right, down, left), placed at rotation 2. -/
def sampleTile : Tile :=
  { Filename := "a", Edges := [5, 6, 7, 8], Rotations := [2], rotation := 2, Weight := 1 }

/-- The opposite side: up pairs with down, left pairs with right. -/
def opposite (s : side) : side :=
  if s = up then down else if s = down then up
  else if s = left then right else if s = right then left else s

/-- The compatibility check `possibleTiles` performs between a candidate `a` placed at
rotation `ra` and a neighbour `b` placed at rotation `rb` across the candidate's side
`s`: the guard `getEdge(s, a) != getEdge(opposite s, b)` does not fire. -/
def compatible (a : Tile) (ra : Int) (b : Tile) (rb : Int) (s : side) : Bool :=
  edgeMismatch (some { b with rotation := rb }) s { a with rotation := ra } (opposite s)
    == some false

/-- Sum of the weights of the first `i` candidates. -/
def prefixWeight (cands : List Tile) (i : Nat) : ℚ := totWeight (cands.take i)

/-- The four neighbour directions of `possibleTiles` as (dx, dy, side of the cell,
side of the neighbour): up, down, left, right. -/
def dirs : List (Int × Int × Int × Int) :=
  [(0, -1, up, down), (0, 1, down, up), (-1, 0, left, right), (1, 0, right, left)]

/-- Every resolved in-bounds cell agrees with each of its four neighbours for which
`getTile` returns a tile (a resolved cell or the boundary tile): the cell's edge on the
shared side equals the neighbour's edge on the opposite side. -/
def consistent (m : Map) : Prop :=
  ∀ x y a, inBounds m x y → getTile m x y = some (some a) →
    ∀ d ∈ dirs, ∀ b, getTile m (x + d.1) (y + d.2.1) = some (some b) →
      getEdge d.2.2.1 a = getEdge d.2.2.2 b

/-- The invariant of the fill loop used for consistency: the map is well formed and
consistent. -/
def fillInv (m : Map) : Prop := goodMap m ∧ consistent m

/-! ## Catalog loading and scan positions -/

/-- A `float64` weight as the catalog loop of `main` reads it. The loop only compares
the weight with 0 and stores the constant 1, both exact operations, so a finite value is
given by the rational it denotes; NaN and the two infinities, which the YAML decoder
can produce (`.nan`, `.inf`, `-.inf`), are kept apart. -/
inductive Float64 where
  | nan : Float64
  | negInf : Float64
  | posInf : Float64
  | fin (q : ℚ) : Float64
deriving DecidableEq

/-- Go's `w <= 0` on a `float64`: false for NaN. -/
def Float64.leZero : Float64 → Bool
  | .nan => false
  | .negInf => true
  | .posInf => false
  | .fin q => decide (q ≤ 0)

/-- Go's `w > 0` on a `float64`: false for NaN. -/
def Float64.gtZero : Float64 → Bool
  | .nan => false
  | .negInf => false
  | .posInf => true
  | .fin q => decide (0 < q)

/-- The struct `Tile` of the source as the catalog loop holds it: as `Tile`, with the
weight a `float64` that may be NaN or infinite. -/
structure ConfigTile where
  Filename : String
  Edges : List Int
  Rotations : List Int
  rotation : Int
  Weight : Float64
deriving DecidableEq

/-- Config: the struct `Config` of the source. -/
structure Config where
  Tiles : List ConfigTile
deriving DecidableEq

/-- The body of the loop `for i, tile := range config.Tiles` of `main` (lines 133-149)
on one tile. `readable fn` says that `os.Open(fn)` and `png.Decode` succeed on the file
`fn`; when they do not the loop calls `panic(err)` (`none`). Then a weight `<= 0`
becomes 1 and an empty `Rotations` becomes `[0,1,2,3]`. -/
def loadTile (readable : String → Bool) (t : ConfigTile) : Option ConfigTile :=
  if readable t.Filename then
    let t1 := if t.Weight.leZero then { t with Weight := Float64.fin 1 } else t
    some (if t1.Rotations.length = 0 then { t1 with Rotations := [0, 1, 2, 3] } else t1)
  else none

/-- The loop `for i, tile := range config.Tiles` of `main` over the remaining tiles. -/
def loadTilesFrom (readable : String → Bool) : List ConfigTile → Option (List ConfigTile)
  | [] => some []
  | t :: ts =>
    match loadTile readable t with
    | none => none
    | some t' =>
      match loadTilesFrom readable ts with
      | none => none
      | some ts' => some (t' :: ts')

/-- The catalog loop of `main` (lines 133-149): every `config.Tiles[i]` is loaded and
normalized in place; `none` when the loop panics. -/
def loadTiles (readable : String → Bool) (config : Config) : Option Config :=
  match loadTilesFrom readable config.Tiles with
  | none => none
  | some ts => some { Tiles := ts }

/-- The tile the fill works on: the fill is modelled over exact rational weights, so a
loaded tile with a finite weight is taken over as it is, and one with a NaN or infinite
weight has no counterpart. -/
def ConfigTile.toTile (t : ConfigTile) : Option Tile :=
  match t.Weight with
  | .fin q =>
    some { Filename := t.Filename, Edges := t.Edges, Rotations := t.Rotations,
           rotation := t.rotation, Weight := q }
  | _ => none

/-- The state of the fill loop at the moment cell `(x, y)` is about to be processed:
columns `0..x-1` are complete and the cells `0..y-1` of column `x` are done. With
`y = 0` and `x = width` it is the state in which the loop ends. -/
def fillBefore (tiles : List Tile) (draws : Nat → ℚ) (x y : Nat) (s : FillState) :
    Option FillState :=
  match fillRows tiles draws (List.range x) s with
  | none => none
  | some s1 => fillColumn tiles draws x (List.range y) s1

/-- Position `(x, y)` is a moment of the fill of a `w`×`h` grid: a cell about to be
processed, the end of a column, or the end of the loop. -/
abbrev isMoment (w h x y : Nat) : Prop := (x < w ∧ y ≤ h) ∨ (x = w ∧ y = 0)

/-- Cell `(x', y')` comes strictly before `(x, y)` in scan order (x outer, y inner). -/
abbrev scanBefore (x' y' x y : Nat) : Prop := x' < x ∨ (x' = x ∧ y' < y)

/-- The enumeration that looks up only the up and left neighbours: the down and right
neighbours are taken to be the boundary tile when they lie outside the grid and
unresolved (`nil`) otherwise. -/
def possibleTilesUpLeft (m : Map) (tiles : List Tile) (x y : Int) : Option (List Tile) :=
  match getTile m x (y - 1) with
  | none => none
  | some upTile =>
    match getTile m (x - 1) y with
    | none => none
    | some leftTile =>
      tileLoop upTile leftTile (if y + 1 ≥ m.height then some empty else none)
        (if x + 1 ≥ m.width then some empty else none) tiles []

/-- The facts that hold at the moment `(x, y)` of the fill of a `w`×`h` grid, whatever
the catalog: the dimensions and the length of the slice are those of the start, one
draw has been taken for each cell already processed, and every cell that does not come
before `(x, y)` in scan order still holds the zero tile. -/
def baseInv (w h x y : Nat) (s : FillState) : Prop :=
  s.m.width = (w : Int) ∧ s.m.height = (h : Int) ∧ s.m.tileMap.length = w * h ∧
    s.used = x * h + y ∧
    ∀ x' y' : Nat, x' < w → y' < h → ¬ scanBefore x' y' x y →
      s.m.tileMap[x' + y' * w]? = some Tile.zero

/-! ## Sample data -/

/-- Catalog tile A of the two-tile scenario: edges up 0, right 1, down 0, left 1. -/
def tileA : Tile :=
  { Filename := "A", Edges := [0, 1, 0, 1], Rotations := [0], rotation := 0, Weight := 1 }

/-- Catalog tile B of the two-tile scenario: edges up 1, right 0, down 1, left 0. -/
def tileB : Tile :=
  { Filename := "B", Edges := [1, 0, 1, 0], Rotations := [0], rotation := 0, Weight := 1 }

/-- A catalog tile that is open (0) on every side, allowed at rotations 0 and 1. -/
def tileZ : Tile :=
  { Filename := "Z", Edges := [0, 0, 0, 0], Rotations := [0, 1], rotation := 0, Weight := 1 }

/-- A 2×1 map whose left cell holds `tileZ` and whose right cell is unresolved. -/
def demoMap : Map := { tileMap := [tileZ, Tile.zero], width := 2, height := 1 }

/-- A 1×2 map whose upper cell is resolved to a tile that has no edge codes. -/
def edgelessMap : Map :=
  { tileMap := [{ Tile.zero with Filename := "a" }, Tile.zero], width := 1, height := 2 }

/-- A map that claims 1×2 cells but whose slice is empty. -/
def shortMap : Map := { tileMap := [], width := 1, height := 2 }

/-- A copy of `tileZ` whose weight is zero (a weight that bypassed normalization). -/
def tileZ0 : Tile := { tileZ with Weight := 0 }

/-- The three-tile sample catalog. -/
def sampleCatalog : List Tile := [tileA, tileB, tileZ]

/-- A sample random source: every draw is 1/2. -/
def sampleDraws : Nat → ℚ := fun _ => 1 / 2

/-- The state of the sample fill of the 2×2 grid after its first step. -/
def sampleState01 : FillState :=
  { m := { tileMap := [{ tileZ with rotation := 1 }, Tile.zero, Tile.zero, Tile.zero],
           width := 2, height := 2 },
    used := 1 }

/-- The state of the sample fill of the 2×2 grid at the moment `(1, 0)`: column 0 is
done. -/
def sampleState10 : FillState :=
  { m := { tileMap := [{ tileZ with rotation := 1 }, Tile.zero, { tileZ with rotation := 1 },
                       Tile.zero],
           width := 2, height := 2 },
    used := 2 }

/-- A tile no validation would accept: five edge codes and the rotation step 4. -/
def tileOdd : Tile :=
  { Filename := "E", Edges := [0, 0, 0, 0, 9], Rotations := [4], rotation := 0, Weight := 1 }

/-- The configuration entry of `tileOdd`. -/
def cfgOdd : ConfigTile :=
  { Filename := "E", Edges := [0, 0, 0, 0, 9], Rotations := [4], rotation := 0,
    Weight := Float64.fin 1 }

/-- A configuration entry with a negative weight and no rotation list. -/
def cfgRaw : ConfigTile :=
  { Filename := "R", Edges := [1, 2, 3, 4], Rotations := [], rotation := 0,
    Weight := Float64.fin (-2) }

/-- A configuration entry whose weight is NaN (`weight: .nan` in the YAML file). -/
def cfgNaN : ConfigTile :=
  { Filename := "N", Edges := [0, 0, 0, 0], Rotations := [0], rotation := 0,
    Weight := Float64.nan }

/-- A catalog tile with an empty `Filename`, open (0) on every side. -/
def tileNameless : Tile :=
  { Filename := "", Edges := [0, 0, 0, 0], Rotations := [0], rotation := 0, Weight := 1 }

/-- A family of tiles outside the validated shape: the first four edge codes are 0,
any further edge codes `extra` follow, and the only rotation step is `r`. -/
def wideTile (fn : String) (extra : List Int) (r q : Int) (wt : ℚ) : Tile :=
  { Filename := fn, Edges := 0 :: 0 :: 0 :: 0 :: extra, Rotations := [r], rotation := q,
    Weight := wt }

/-- The configuration entry of `wideTile` with weight 1. -/
def cfgWide (fn : String) (extra : List Int) (r q : Int) : ConfigTile :=
  { Filename := fn, Edges := 0 :: 0 :: 0 :: 0 :: extra, Rotations := [r], rotation := q,
    Weight := Float64.fin 1 }

/-! ## getEdge -/

theorem wrapInt_small (v : Int) (h0 : 0 ≤ v) (h1 : v ≤ 6) : wrapInt v = v := by
  unfold wrapInt; omega

theorem getEdge_eq (s : Int) (t : Tile) (hs : isSide s) (ht : goodTile t) :
    getEdge s t = t.Edges[((s + t.rotation) % 4).toNat]? := by
  obtain ⟨hs0, hs3⟩ := hs
  obtain ⟨_, hr0, hr3⟩ := ht
  unfold getEdge index
  rw [wrapInt_small _ (by omega) (by omega), Int.tmod_eq_emod (by omega) (by norm_num)]
  rw [if_neg (by omega)]

theorem getEdge_isSome (s : Int) (t : Tile) (hs : isSide s) (ht : goodTile t) :
    ∃ e, getEdge s t = some e := by
  rw [getEdge_eq s t hs ht]
  have hlen := ht.1
  have h : ((s + t.rotation) % 4).toNat < t.Edges.length := by omega
  exact ⟨_, List.getElem?_eq_getElem h⟩

/-- C6: for a tile with exactly 4 edge codes and rotation in {0,1,2,3} and a side
`s` in {0,1,2,3}, `getEdge s tile` does not fail and is the entry of `tile.Edges` at
index `(s + rotation) mod 4`; it is the edge the unrotated tile shows on side
`(s + rotation) mod 4`, so rotation shifts the side index and leaves the edge values
as they are. -/
theorem getEdge_circular_shift (s : Int) (tile : Tile) (hs : isSide s)
    (ht : goodTile tile) :
    ∃ e, getEdge s tile = some e ∧
      tile.Edges[((s + tile.rotation) % 4).toNat]? = some e ∧
      getEdge ((s + tile.rotation) % 4) { tile with rotation := 0 } = some e ∧
      e ∈ tile.Edges := by
  obtain ⟨e, he⟩ := getEdge_isSome s tile hs ht
  have h1 := getEdge_eq s tile hs ht
  have hs' : isSide ((s + tile.rotation) % 4) := ⟨by omega, by omega⟩
  have ht' : goodTile { tile with rotation := 0 } := ⟨ht.1, le_refl _, by norm_num⟩
  have h2 := getEdge_eq _ _ hs' ht'
  simp only [add_zero] at h2
  have h3 : ((s + tile.rotation) % 4 % 4 : Int) = (s + tile.rotation) % 4 := by omega
  rw [h3] at h2
  refine ⟨e, he, ?_, ?_, ?_⟩
  · rw [← h1]; exact he
  · rw [h2, ← h1]; exact he
  · rw [h1] at he
    exact List.getElem?_mem he

theorem getEdge_circular_shift_witness :
    ∃ e, getEdge 3 sampleTile = some e ∧
      sampleTile.Edges[((3 + sampleTile.rotation) % 4).toNat]? = some e ∧
      getEdge ((3 + sampleTile.rotation) % 4) { sampleTile with rotation := 0 } = some e ∧
      e ∈ sampleTile.Edges :=
  getEdge_circular_shift 3 sampleTile (by decide) (by decide)

/-! ## getTile -/

theorem cell_index_bounds (x y w h : Int) (hx0 : 0 ≤ x) (hxw : x < w) (hy0 : 0 ≤ y)
    (hyh : y < h) : 0 ≤ x + y * w ∧ x + y * w < w * h := by
  have hw : 0 ≤ w := by omega
  have h1 : 0 ≤ y * w := mul_nonneg hy0 hw
  have h2 : (y + 1) * w ≤ h * w := mul_le_mul_of_nonneg_right (by omega) hw
  constructor
  · omega
  · nlinarith

theorem index_eq_getElem? {α : Type} (xs : List α) (i : Int) (h : 0 ≤ i) :
    index xs i = xs[i.toNat]? := by
  unfold index
  rw [if_neg (by omega)]

theorem getTile_out (m : Map) (x y : Int) (h : ¬ inBounds m x y) :
    getTile m x y = some (some empty) := by
  unfold getTile
  by_cases hx : x < 0 ∨ x ≥ m.width
  · rw [if_pos hx]
  · rw [if_neg hx]
    have hy : y < 0 ∨ y ≥ m.height := by
      unfold inBounds at h
      omega
    rw [if_pos hy]

theorem getTile_in (m : Map) (x y : Int) (h : inBounds m x y) :
    getTile m x y =
      match index m.tileMap (x + y * m.width) with
      | none => none
      | some t => if t.Filename = "" then some none else some (some t) := by
  obtain ⟨h1, h2, h3, h4⟩ := h
  unfold getTile
  rw [if_neg (by omega), if_neg (by omega)]

theorem stored_cell (m : Map) (x y : Int)
    (hlen : (m.tileMap.length : Int) = m.width * m.height) (h : inBounds m x y) :
    ∃ t, m.tileMap[(x + y * m.width).toNat]? = some t ∧
      index m.tileMap (x + y * m.width) = some t := by
  obtain ⟨h1, h2, h3, h4⟩ := h
  obtain ⟨hb0, hb1⟩ := cell_index_bounds x y m.width m.height h1 h2 h3 h4
  have hlt : (x + y * m.width).toNat < m.tileMap.length := by omega
  refine ⟨m.tileMap[(x + y * m.width).toNat], List.getElem?_eq_getElem hlt, ?_⟩
  rw [index_eq_getElem? _ _ hb0]
  exact List.getElem?_eq_getElem hlt

theorem goodTile_empty : goodTile empty := by decide

theorem getTile_good (m : Map) (hm : goodMap m) (x y : Int) :
    ∃ g, getTile m x y = some g ∧ ∀ n, g = some n → goodTile n := by
  by_cases hb : inBounds m x y
  · obtain ⟨t, ht, hi⟩ := stored_cell m x y hm.1 hb
    rw [getTile_in m x y hb, hi]
    by_cases hf : t.Filename = ""
    · exact ⟨none, by simp [hf], by simp⟩
    · refine ⟨some t, by simp [hf], ?_⟩
      intro n hn
      cases hn
      exact hm.2 t (List.getElem?_mem ht) hf
  · exact ⟨some empty, getTile_out m x y hb, by intro n hn; cases hn; exact goodTile_empty⟩

/-! ## possibleTiles -/

theorem edgeMismatch_eq (nb : Option Tile) (s o : Int) (tile : Tile) (hs : isSide s)
    (ho : isSide o) (ht : goodTile tile) (hn : ∀ n, nb = some n → goodTile n) :
    edgeMismatch nb s tile o = some (!(neighbourOk (some nb) s tile o)) := by
  cases nb with
  | none => simp [edgeMismatch, neighbourOk]
  | some n =>
    obtain ⟨a, ha⟩ := getEdge_isSome s tile hs ht
    obtain ⟨b, hb⟩ := getEdge_isSome o n ho (hn n rfl)
    simp [edgeMismatch, neighbourOk, ha, hb, bne]

theorem admitted_eq (u l d r : Option Tile) (tile : Tile) (ht : goodTile tile)
    (hu : ∀ n, u = some n → goodTile n) (hl : ∀ n, l = some n → goodTile n)
    (hd : ∀ n, d = some n → goodTile n) (hr : ∀ n, r = some n → goodTile n) :
    admitted u l d r tile =
      some (neighbourOk (some u) up tile down && neighbourOk (some d) down tile up &&
        neighbourOk (some l) left tile right && neighbourOk (some r) right tile left) := by
  unfold admitted
  rw [edgeMismatch_eq u up down tile (by decide) (by decide) ht hu,
    edgeMismatch_eq d down up tile (by decide) (by decide) ht hd,
    edgeMismatch_eq l left right tile (by decide) (by decide) ht hl,
    edgeMismatch_eq r right left tile (by decide) (by decide) ht hr]
  cases neighbourOk (some u) up tile down <;> cases neighbourOk (some d) down tile up <;>
    cases neighbourOk (some l) left tile right <;>
    cases neighbourOk (some r) right tile left <;> rfl

theorem rotationLoop_eq (u l d r : Option Tile)
    (hu : ∀ n, u = some n → goodTile n) (hl : ∀ n, l = some n → goodTile n)
    (hd : ∀ n, d = some n → goodTile n) (hr : ∀ n, r = some n → goodTile n)
    (rs : List Int) :
    ∀ (tile : Tile) (res : List Tile), tile.Edges.length = 4 →
      (∀ q ∈ rs, 0 ≤ q ∧ q ≤ 3) →
      rotationLoop u l d r tile rs res =
        some (res ++ (rs.map (fun q => { tile with rotation := q })).filter
          (okAll u l d r)) := by
  induction rs with
  | nil => intro tile res _ _; simp [rotationLoop]
  | cons q qs ih =>
    intro tile res hE hq
    have hq0 := hq q (List.mem_cons_self _ _)
    have hqs : ∀ q' ∈ qs, 0 ≤ q' ∧ q' ≤ 3 := fun q' h' => hq q' (List.mem_cons_of_mem _ h')
    have hg : goodTile { tile with rotation := q } := ⟨hE, hq0.1, hq0.2⟩
    rw [rotationLoop]
    rw [admitted_eq u l d r _ hg hu hl hd hr]
    rw [List.map_cons, List.filter_cons]
    change (match some (okAll u l d r { tile with rotation := q }) with
      | none => none
      | some true => _
      | some false => _) = _
    cases hok : okAll u l d r { tile with rotation := q }
    · simp only [Bool.false_eq_true, if_false]
      exact ih { tile with rotation := q } _ hE hqs
    · simp only [if_true]
      rw [ih { tile with rotation := q } _ hE hqs]
      simp

theorem tileLoop_eq (u l d r : Option Tile)
    (hu : ∀ n, u = some n → goodTile n) (hl : ∀ n, l = some n → goodTile n)
    (hd : ∀ n, d = some n → goodTile n) (hr : ∀ n, r = some n → goodTile n)
    (tiles : List Tile) :
    ∀ (res : List Tile), goodCatalog tiles →
      tileLoop u l d r tiles res =
        some (res ++ tiles.flatMap (fun t => (rotated t).filter (okAll u l d r))) := by
  induction tiles with
  | nil => intro res _; simp [tileLoop]
  | cons t ts ih =>
    intro res hc
    have ht := hc t (List.mem_cons_self _ _)
    have hts : goodCatalog ts := fun t' h' => hc t' (List.mem_cons_of_mem _ h')
    rw [tileLoop, rotationLoop_eq u l d r hu hl hd hr t.Rotations t res ht.1 ht.2]
    simp only
    rw [ih _ hts]
    simp [rotated, List.flatMap_cons]

theorem possibleTiles_eq_spec (m : Map) (tiles : List Tile) (x y : Int) (hm : goodMap m)
    (hc : goodCatalog tiles) :
    possibleTiles m tiles x y = some (specPossibleTiles m tiles x y) := by
  obtain ⟨u, hu, hug⟩ := getTile_good m hm x (y - 1)
  obtain ⟨l, hl, hlg⟩ := getTile_good m hm (x - 1) y
  obtain ⟨d, hd, hdg⟩ := getTile_good m hm x (y + 1)
  obtain ⟨r, hr, hrg⟩ := getTile_good m hm (x + 1) y
  unfold possibleTiles specPossibleTiles
  rw [hu, hl, hd, hr]
  simp only
  rw [tileLoop_eq u l d r hug hlg hdg hrg tiles [] hc]
  have hfun : admissible m x y = okAll u l d r := by
    funext c
    unfold admissible okAll
    rw [hu, hl, hd, hr]
  rw [hfun]
  simp

/-- A member of the specification's candidate list is a copy of a catalog tile at an
allowed rotation that is admissible at the cell. -/
theorem mem_specPossibleTiles (m : Map) (tiles : List Tile) (x y : Int) (c : Tile) :
    c ∈ specPossibleTiles m tiles x y ↔
      ∃ t ∈ tiles, ∃ r ∈ t.Rotations, c = { t with rotation := r } ∧
        admissible m x y c = true := by
  simp only [specPossibleTiles, rotated, List.mem_flatMap, List.mem_filter, List.mem_map]
  constructor
  · rintro ⟨t, ht, ⟨r, hr, rfl⟩, ha⟩
    exact ⟨t, ht, r, hr, rfl, ha⟩
  · rintro ⟨t, ht, r, hr, rfl, ha⟩
    exact ⟨t, ht, ⟨r, hr, rfl⟩, ha⟩

/-- C1 (as amended): for every map with `width*height` cells whose resolved cells have
exactly 4 edges and rotation in {0,1,2,3}, every catalog whose tiles have exactly 4
edges and rotations in {0,1,2,3}, and every cell `(x, y)`, `possibleTiles` returns
exactly the list, in catalog order and within a tile in the order of its `Rotations`,
of the copies of catalog tiles with rotation set to `r` that agree with each of the
four neighbours for which `getTile` returns a tile; a `nil` neighbour imposes nothing,
and the result is the empty list when no pair is admissible. -/
theorem possibleTiles_contract (m : Map) (tiles : List Tile) (x y : Int) (hm : goodMap m)
    (hc : goodCatalog tiles) :
    possibleTiles m tiles x y = some (specPossibleTiles m tiles x y) ∧
    (∀ c, c ∈ specPossibleTiles m tiles x y ↔
      ∃ t ∈ tiles, ∃ r ∈ t.Rotations, c = { t with rotation := r } ∧
        admissible m x y c = true) ∧
    (∀ (s o : Int) (c : Tile), neighbourOk (some none) s c o = true) ∧
    ((∀ t ∈ tiles, ∀ r ∈ t.Rotations, admissible m x y { t with rotation := r } = false) →
      possibleTiles m tiles x y = some []) := by
  have hmem := mem_specPossibleTiles m tiles x y
  refine ⟨possibleTiles_eq_spec m tiles x y hm hc, hmem, fun _ _ _ => rfl, ?_⟩
  intro hnone
  rw [possibleTiles_eq_spec m tiles x y hm hc]
  congr 1
  apply List.eq_nil_iff_forall_not_mem.mpr
  intro c hcm
  obtain ⟨t, ht, r, hr, rfl, ha⟩ := (hmem c).mp hcm
  rw [hnone t ht r hr] at ha
  exact Bool.false_ne_true ha

theorem possibleTiles_contract_witness :
    goodMap demoMap ∧ goodCatalog [tileA, tileB, tileZ] ∧
    (possibleTiles demoMap [tileA, tileB, tileZ] 1 0 =
        some (specPossibleTiles demoMap [tileA, tileB, tileZ] 1 0) ∧
      (∀ c, c ∈ specPossibleTiles demoMap [tileA, tileB, tileZ] 1 0 ↔
        ∃ t ∈ [tileA, tileB, tileZ], ∃ r ∈ t.Rotations, c = { t with rotation := r } ∧
          admissible demoMap 1 0 c = true) ∧
      (∀ (s o : Int) (c : Tile), neighbourOk (some none) s c o = true) ∧
      ((∀ t ∈ [tileA, tileB, tileZ], ∀ r ∈ t.Rotations,
          admissible demoMap 1 0 { t with rotation := r } = false) →
        possibleTiles demoMap [tileA, tileB, tileZ] 1 0 = some [])) :=
  ⟨by decide, by decide,
    possibleTiles_contract demoMap [tileA, tileB, tileZ] 1 0 (by decide) (by decide)⟩

/-- C1 (as stated) fails for maps that are not well formed: with a resolved up
neighbour that has no edge codes, or with a slice shorter than `width*height`,
`possibleTiles` panics instead of returning the list of the specification, although
the catalog has exactly 4 edges and rotations in {0,1,2,3}. -/
theorem panics_on_malformed_map :
    goodCatalog [tileZ] ∧
    possibleTiles edgelessMap [tileZ] 0 1 = none ∧
    possibleTiles edgelessMap [tileZ] 0 1 ≠ some (specPossibleTiles edgelessMap [tileZ] 0 1) ∧
    possibleTiles shortMap [tileZ] 0 1 = none ∧
    possibleTiles shortMap [tileZ] 0 1 ≠ some (specPossibleTiles shortMap [tileZ] 0 1) := by
  decide

/-! ## Compatibility -/

/-- C7: compatibility is symmetric under swapping the two tiles and taking the
opposite side: for tiles with 4 edges, rotations in {0,1,2,3} and a side `s`,
`compatible t1 r1 t2 r2 s = compatible t2 r2 t1 r1 (opposite s)`, where `compatible`
holds exactly when the candidate's edge on `s` equals the neighbour's edge on the
opposite side. -/
theorem compatible_symm (t1 t2 : Tile) (r1 r2 s : Int) (hs : isSide s)
    (h1 : goodTile { t1 with rotation := r1 }) (h2 : goodTile { t2 with rotation := r2 }) :
    compatible t1 r1 t2 r2 s = compatible t2 r2 t1 r1 (opposite s) ∧
    (compatible t1 r1 t2 r2 s = true ↔
      getEdge s { t1 with rotation := r1 } =
        getEdge (opposite s) { t2 with rotation := r2 }) := by
  have hcases : s = 0 ∨ s = 1 ∨ s = 2 ∨ s = 3 := by
    obtain ⟨h0, h3⟩ := hs
    omega
  have hos : isSide (opposite s) := by
    rcases hcases with rfl | rfl | rfl | rfl <;> decide
  have hoo : opposite (opposite s) = s := by
    rcases hcases with rfl | rfl | rfl | rfl <;> decide
  obtain ⟨a, ha⟩ := getEdge_isSome s _ hs h1
  obtain ⟨b, hb⟩ := getEdge_isSome (opposite s) _ hos h2
  obtain ⟨a', ha'⟩ := getEdge_isSome (opposite s) _ hos h1
  obtain ⟨b', hb'⟩ := getEdge_isSome s _ hs h2
  constructor
  · simp only [compatible, edgeMismatch, hoo, ha, hb, ha', hb']
    have hne : (a != b) = (b != a) := by
      by_cases hab : a = b
      · subst hab; rfl
      · have hba : ¬ b = a := fun h => hab h.symm
        rw [bne_iff_ne.mpr hab, bne_iff_ne.mpr hba]
    rw [hne]
  · simp only [compatible, edgeMismatch, ha, hb]
    by_cases hab : a = b
    · subst hab
      simp
    · simp [hab]

theorem compatible_symm_witness :
    isSide 1 ∧
    (compatible tileA 0 tileB 0 1 = compatible tileB 0 tileA 0 (opposite 1) ∧
      (compatible tileA 0 tileB 0 1 = true ↔
        getEdge 1 { tileA with rotation := 0 } =
          getEdge (opposite 1) { tileB with rotation := 0 })) :=
  ⟨by decide, compatible_symm tileA tileB 0 0 1 (by decide) (by decide) (by decide)⟩

/-! ## Neighbour lookup -/

/-- C10: for a map with `len(tileMap) = width*height` and all integers `x`, `y`,
`getTile` returns the boundary tile (all four edges 0, rotation 0) iff `(x, y)` lies
outside `[0,width) × [0,height)`; for an in-bounds cell it returns `nil` iff the stored
cell at index `x + y*width` has an empty `Filename`, and otherwise that stored cell.
It never panics, the two results are distinct, and the boundary tile is never the
result for a stored cell. -/
theorem getTile_lookup (m : Map) (x y : Int)
    (hlen : (m.tileMap.length : Int) = m.width * m.height) :
    (getTile m x y = some (some empty) ↔ ¬ inBounds m x y) ∧
    (inBounds m x y → ∃ t, m.tileMap[(x + y * m.width).toNat]? = some t ∧
      0 ≤ x + y * m.width ∧
      (getTile m x y = some none ↔ t.Filename = "") ∧
      (t.Filename ≠ "" → getTile m x y = some (some t))) ∧
    empty.Edges = [0, 0, 0, 0] ∧ empty.rotation = 0 ∧
    (some (some empty) : Option (Option Tile)) ≠ some none ∧
    getTile m x y ≠ none := by
  have hin : inBounds m x y → ∃ t, m.tileMap[(x + y * m.width).toNat]? = some t ∧
      0 ≤ x + y * m.width ∧
      (getTile m x y = some none ↔ t.Filename = "") ∧
      (t.Filename ≠ "" → getTile m x y = some (some t)) := by
    intro hb
    obtain ⟨t, ht, hi⟩ := stored_cell m x y hlen hb
    refine ⟨t, ht, (cell_index_bounds x y m.width m.height hb.1 hb.2.1 hb.2.2.1 hb.2.2.2).1,
      ?_, ?_⟩
    · rw [getTile_in m x y hb, hi]
      by_cases hf : t.Filename = "" <;> simp [hf]
    · intro hf
      rw [getTile_in m x y hb, hi]
      simp [hf]
  refine ⟨⟨?_, getTile_out m x y⟩, hin, rfl, rfl, by simp, ?_⟩
  · intro hg hb
    obtain ⟨t, _, _, hnil, hsome⟩ := hin hb
    by_cases hf : t.Filename = ""
    · rw [hnil.mpr hf] at hg
      simp at hg
    · rw [hsome hf] at hg
      simp only [Option.some.injEq] at hg
      rw [hg] at hf
      exact hf rfl
  · by_cases hb : inBounds m x y
    · obtain ⟨t, _, _, hnil, hsome⟩ := hin hb
      by_cases hf : t.Filename = ""
      · rw [hnil.mpr hf]; simp
      · rw [hsome hf]; simp
    · rw [getTile_out m x y hb]; simp

theorem getTile_lookup_witness :
    ((demoMap.tileMap.length : Int) = demoMap.width * demoMap.height) ∧
    ((getTile demoMap 0 0 = some (some empty) ↔ ¬ inBounds demoMap 0 0) ∧
    (inBounds demoMap 0 0 → ∃ t, demoMap.tileMap[((0 : Int) + 0 * demoMap.width).toNat]? =
        some t ∧
      0 ≤ (0 : Int) + 0 * demoMap.width ∧
      (getTile demoMap 0 0 = some none ↔ t.Filename = "") ∧
      (t.Filename ≠ "" → getTile demoMap 0 0 = some (some t))) ∧
    empty.Edges = [0, 0, 0, 0] ∧ empty.rotation = 0 ∧
    (some (some empty) : Option (Option Tile)) ≠ some none ∧
    getTile demoMap 0 0 ≠ none) :=
  ⟨by decide, getTile_lookup demoMap 0 0 (by decide)⟩

/-! ## Weighted selection -/

theorem prefixWeight_zero (cands : List Tile) : prefixWeight cands 0 = 0 := by
  simp [prefixWeight, totWeight]

theorem prefixWeight_succ (t : Tile) (ts : List Tile) (i : Nat) :
    prefixWeight (t :: ts) (i + 1) = t.Weight + prefixWeight ts i := by
  simp [prefixWeight, totWeight]

theorem prefixWeight_nonneg (cands : List Tile) (hw : ∀ t ∈ cands, 0 ≤ t.Weight) :
    ∀ i, 0 ≤ prefixWeight cands i := by
  induction cands with
  | nil => intro i; simp [prefixWeight, totWeight]
  | cons t ts ih =>
    intro i
    cases i with
    | zero => rw [prefixWeight_zero]
    | succ i =>
      rw [prefixWeight_succ]
      have h1 := hw t (List.mem_cons_self _ _)
      have h2 := ih (fun t' h' => hw t' (List.mem_cons_of_mem _ h')) i
      linarith

theorem prefixWeight_mono (cands : List Tile) (hw : ∀ t ∈ cands, 0 ≤ t.Weight) :
    ∀ i j, i ≤ j → prefixWeight cands i ≤ prefixWeight cands j := by
  induction cands with
  | nil => intro i j _; simp [prefixWeight, totWeight]
  | cons t ts ih =>
    intro i j hij
    have hts : ∀ t' ∈ ts, 0 ≤ t'.Weight := fun t' h' => hw t' (List.mem_cons_of_mem _ h')
    cases i with
    | zero =>
      rw [prefixWeight_zero]
      exact prefixWeight_nonneg _ hw j
    | succ i =>
      cases j with
      | zero => omega
      | succ j =>
        rw [prefixWeight_succ, prefixWeight_succ]
        have := ih hts i j (by omega)
        linarith

theorem selectScan_spec (cands : List Tile) :
    ∀ (r : ℚ) (k : Nat), (∀ t ∈ cands, 0 < t.Weight) → 0 ≤ r → r < totWeight cands →
      ∃ i, selectScan cands r k = some (k + i) ∧ i < cands.length ∧
        prefixWeight cands i ≤ r ∧ r < prefixWeight cands (i + 1) := by
  induction cands with
  | nil =>
    intro r k _ h0 h1
    simp only [totWeight] at h1
    linarith
  | cons t ts ih =>
    intro r k hw h0 h1
    have hts : ∀ t' ∈ ts, 0 < t'.Weight := fun t' h' => hw t' (List.mem_cons_of_mem _ h')
    simp only [totWeight] at h1
    by_cases hlt : r - t.Weight < 0
    · refine ⟨0, ?_, by simp, ?_, ?_⟩
      · simp [selectScan, hlt]
      · rw [prefixWeight_zero]; exact h0
      · rw [prefixWeight_succ, prefixWeight_zero]; linarith
    · obtain ⟨i, hi, hlen, hlo, hhi⟩ := ih (r - t.Weight) (k + 1) hts (by linarith)
        (by linarith)
      refine ⟨i + 1, ?_, by simp; omega, ?_, ?_⟩
      · simp only [selectScan, if_neg hlt, hi]
        congr 1
        omega
      · rw [prefixWeight_succ]; linarith
      · rw [prefixWeight_succ]; linarith

theorem selectScan_bounds (cands : List Tile) :
    ∀ (r : ℚ) (k i : Nat), selectScan cands r k = some i → k ≤ i ∧ i < k + cands.length := by
  induction cands with
  | nil => intro r k i h; simp [selectScan] at h
  | cons t ts ih =>
    intro r k i h
    by_cases hlt : r - t.Weight < 0
    · simp only [selectScan, if_pos hlt, Option.some.injEq] at h
      subst h
      simp
    · simp only [selectScan, if_neg hlt] at h
      have := ih _ _ _ h
      simp only [List.length_cons]
      omega

/-! ## The fill step -/

theorem cell_index_inj (x y x0 y0 w : Int) (hx0 : 0 ≤ x) (hxw : x < w) (hx00 : 0 ≤ x0)
    (hx0w : x0 < w) (h : x + y * w = x0 + y0 * w) : x = x0 ∧ y = y0 := by
  have hw : 0 ≤ w := by omega
  have hy : y = y0 := by
    rcases lt_trichotomy y y0 with hlt | heq | hgt
    · have h1 : (y + 1) * w ≤ y0 * w := mul_le_mul_of_nonneg_right (by omega) hw
      have h2 : (y + 1) * w = y * w + w := by ring
      omega
    · exact heq
    · have h1 : (y0 + 1) * w ≤ y * w := mul_le_mul_of_nonneg_right (by omega) hw
      have h2 : (y0 + 1) * w = y0 * w + w := by ring
      omega
  subst hy
  exact ⟨by omega, rfl⟩

theorem getTile_set (m : Map) (x0 y0 : Int) (t : Tile) (hb0 : inBounds m x0 y0)
    (hlen : (m.tileMap.length : Int) = m.width * m.height) (hf : t.Filename ≠ "")
    (x y : Int) :
    getTile { m with tileMap := m.tileMap.set (x0 + y0 * m.width).toNat t } x y =
      if x = x0 ∧ y = y0 then some (some t) else getTile m x y := by
  by_cases hb : inBounds m x y
  · have hb' : inBounds { m with tileMap := m.tileMap.set (x0 + y0 * m.width).toNat t } x y :=
      hb
    obtain ⟨i0, i1⟩ := cell_index_bounds x y m.width m.height hb.1 hb.2.1 hb.2.2.1 hb.2.2.2
    obtain ⟨j0, j1⟩ := cell_index_bounds x0 y0 m.width m.height hb0.1 hb0.2.1 hb0.2.2.1
      hb0.2.2.2
    rw [getTile_in _ x y hb', getTile_in m x y hb]
    simp only
    rw [index_eq_getElem? _ _ i0, index_eq_getElem? _ _ i0, List.getElem?_set]
    by_cases hxy : x = x0 ∧ y = y0
    · obtain ⟨rfl, rfl⟩ := hxy
      have hlt : (x + y * m.width).toNat < m.tileMap.length := by omega
      simp [hlt, hf]
    · have hne : ¬ (x0 + y0 * m.width).toNat = (x + y * m.width).toNat := by
        intro heq
        have : x + y * m.width = x0 + y0 * m.width := by omega
        exact hxy (cell_index_inj x y x0 y0 m.width hb.1 hb.2.1 hb0.1 hb0.2.1 this)
      rw [if_neg hne, if_neg hxy]
  · have hb' : ¬ inBounds { m with tileMap := m.tileMap.set (x0 + y0 * m.width).toNat t } x y :=
      hb
    rw [getTile_out _ x y hb', getTile_out m x y hb]
    have hxy : ¬ (x = x0 ∧ y = y0) := by
      rintro ⟨rfl, rfl⟩
      exact hb hb0
    rw [if_neg hxy]

/-- What one step of the fill does on a well-sized map at an in-bounds cell. -/
theorem fillCell_cases (tiles : List Tile) (draws : Nat → ℚ) (x y : Int) (s : FillState)
    (cands : List Tile) (hp : possibleTiles s.m tiles x y = some cands)
    (hb : inBounds s.m x y) (hlen : (s.m.tileMap.length : Int) = s.m.width * s.m.height) :
    (selectScan cands (draws s.used * totWeight cands) 0 = none ∧
      fillCell tiles draws x y s = some { m := s.m, used := s.used + 1 }) ∨
    (∃ i t, selectScan cands (draws s.used * totWeight cands) 0 = some i ∧
      cands[i]? = some t ∧
      fillCell tiles draws x y s =
        some { m := { s.m with tileMap := s.m.tileMap.set (x + y * s.m.width).toNat t },
               used := s.used + 1 }) := by
  cases hsel : selectScan cands (draws s.used * totWeight cands) 0 with
  | none =>
    left
    refine ⟨rfl, ?_⟩
    simp only [fillCell, hp, hsel]
  | some i =>
    right
    obtain ⟨_, hi⟩ := selectScan_bounds cands _ 0 i hsel
    have hi' : i < cands.length := by omega
    obtain ⟨j0, j1⟩ := cell_index_bounds x y s.m.width s.m.height hb.1 hb.2.1 hb.2.2.1 hb.2.2.2
    have hlt : (x + y * s.m.width).toNat < s.m.tileMap.length := by omega
    refine ⟨i, cands[i], rfl, List.getElem?_eq_getElem hi', ?_⟩
    have hidx : index cands (i : Int) = some cands[i] := by
      rw [index_eq_getElem? _ _ (by omega)]
      simp [hi']
    have hst : store s.m.tileMap (x + y * s.m.width) cands[i] =
        some (s.m.tileMap.set (x + y * s.m.width).toNat cands[i]) := by
      unfold store
      rw [if_neg (by omega), if_pos hlt]
    simp only [fillCell, hp, hsel, hidx, hst]

theorem admissible_dirs (m : Map) (x y : Int) (c : Tile) :
    admissible m x y c = true ↔
      ∀ d ∈ dirs, neighbourOk (getTile m (x + d.1) (y + d.2.1)) d.2.2.1 c d.2.2.2 = true := by
  have e1 : y + -1 = y - 1 := by ring
  have e2 : x + -1 = x - 1 := by ring
  simp only [admissible, dirs, Bool.and_eq_true, List.mem_cons, List.mem_singleton,
    List.not_mem_nil, or_false, forall_eq_or_imp, forall_eq, add_zero, e1, e2]
  tauto

theorem dirs_opposite : ∀ d ∈ dirs, (-d.1, -d.2.1, d.2.2.2, d.2.2.1) ∈ dirs := by decide

theorem dirs_nonzero : ∀ d ∈ dirs, d.1 ≠ 0 ∨ d.2.1 ≠ 0 := by decide

theorem validCatalog_good (tiles : List Tile) (h : validCatalog tiles) : goodCatalog tiles :=
  fun t ht => (h t ht).2

theorem candidate_facts (m : Map) (tiles : List Tile) (x y : Int) (c : Tile)
    (hv : validCatalog tiles) (hc : c ∈ specPossibleTiles m tiles x y) :
    c.Filename ≠ "" ∧ goodTile c ∧ admissible m x y c = true := by
  obtain ⟨t, ht, r, hr, rfl, ha⟩ := (mem_specPossibleTiles m tiles x y c).mp hc
  obtain ⟨hf, hE, hR⟩ := hv t ht
  exact ⟨hf, ⟨hE, (hR r hr).1, (hR r hr).2⟩, ha⟩

theorem goodMap_set (m : Map) (i : Nat) (t : Tile) (hm : goodMap m) (ht : goodTile t) :
    goodMap { m with tileMap := m.tileMap.set i t } := by
  refine ⟨?_, ?_⟩
  · simp only [List.length_set]
    exact hm.1
  · intro t' hmem hf
    rcases List.mem_or_eq_of_mem_set hmem with h | h
    · exact hm.2 t' h hf
    · rw [h]; exact ht

theorem neighbourOk_eq (s o : Int) (c b : Tile)
    (h : neighbourOk (some (some b)) s c o = true) : getEdge s c = getEdge o b := by
  simpa [neighbourOk] using h

theorem consistent_set (m : Map) (x0 y0 : Int) (t : Tile) (hm : goodMap m)
    (hcons : consistent m) (hb0 : inBounds m x0 y0) (hf : t.Filename ≠ "")
    (hadm : admissible m x0 y0 t = true) :
    consistent { m with tileMap := m.tileMap.set (x0 + y0 * m.width).toNat t } := by
  intro x y a hb hg d hd b hgb
  rw [getTile_set m x0 y0 t hb0 hm.1 hf] at hg hgb
  have hall := (admissible_dirs m x0 y0 t).mp hadm
  by_cases hxy : x = x0 ∧ y = y0
  · obtain ⟨rfl, rfl⟩ := hxy
    rw [if_pos ⟨rfl, rfl⟩] at hg
    have hat : a = t := by
      simp only [Option.some.injEq] at hg
      exact hg.symm
    subst hat
    have hnz := dirs_nonzero d hd
    have hne : ¬ (x + d.1 = x ∧ y + d.2.1 = y) := by omega
    rw [if_neg hne] at hgb
    have := hall d hd
    rw [hgb] at this
    exact neighbourOk_eq _ _ _ _ this
  · rw [if_neg hxy] at hg
    by_cases hnb : x + d.1 = x0 ∧ y + d.2.1 = y0
    · rw [if_pos hnb] at hgb
      have hbt : b = t := by
        simp only [Option.some.injEq] at hgb
        exact hgb.symm
      subst hbt
      have := hall _ (dirs_opposite d hd)
      have ex : x0 + -d.1 = x := by omega
      have ey : y0 + -d.2.1 = y := by omega
      simp only [ex, ey] at this
      rw [hg] at this
      exact (neighbourOk_eq _ _ _ _ this).symm
    · rw [if_neg hnb] at hgb
      exact hcons x y a hb hg d hd b hgb

/-- One step of the fill at an in-bounds cell keeps the map well formed and
consistent, never panics, keeps the dimensions and takes one draw. -/
theorem fillCell_inv (tiles : List Tile) (draws : Nat → ℚ) (x y : Int) (s : FillState)
    (hv : validCatalog tiles) (hinv : fillInv s.m) (hb : inBounds s.m x y) :
    ∃ s', fillCell tiles draws x y s = some s' ∧ fillInv s'.m ∧
      s'.m.width = s.m.width ∧ s'.m.height = s.m.height ∧ s'.used = s.used + 1 := by
  obtain ⟨hm, hcons⟩ := hinv
  have hp := possibleTiles_eq_spec s.m tiles x y hm (validCatalog_good tiles hv)
  rcases fillCell_cases tiles draws x y s _ hp hb hm.1 with ⟨_, hfc⟩ | ⟨i, t, _, hit, hfc⟩
  · exact ⟨_, hfc, ⟨hm, hcons⟩, rfl, rfl, rfl⟩
  · obtain ⟨hf, hg, ha⟩ := candidate_facts s.m tiles x y t hv (List.getElem?_mem hit)
    exact ⟨_, hfc, ⟨goodMap_set s.m _ t hm hg, consistent_set s.m x y t hm hcons hb hf ha⟩,
      rfl, rfl, rfl⟩

/-! ## The fill loop -/

theorem fillColumn_preserves (tiles : List Tile) (draws : Nat → ℚ) (x : Int)
    (P : FillState → Prop) (ys : List Nat)
    (hstep : ∀ y ∈ ys, ∀ s, P s → ∃ s', fillCell tiles draws x (y : Int) s = some s' ∧ P s') :
    ∀ s, P s → ∃ s', fillColumn tiles draws x ys s = some s' ∧ P s' := by
  induction ys with
  | nil => intro s hs; exact ⟨s, rfl, hs⟩
  | cons y ys ih =>
    intro s hs
    obtain ⟨s1, h1, hP1⟩ := hstep y (List.mem_cons_self _ _) s hs
    obtain ⟨s2, h2, hP2⟩ := ih (fun y' hy' => hstep y' (List.mem_cons_of_mem _ hy')) s1 hP1
    refine ⟨s2, ?_, hP2⟩
    simp only [fillColumn, h1, h2]

theorem fillRows_preserves (tiles : List Tile) (draws : Nat → ℚ)
    (P : FillState → Prop) (xs : List Nat)
    (hstep : ∀ x ∈ xs, ∀ s, P s →
      ∃ s', fillColumn tiles draws (x : Int) (List.range s.m.height.toNat) s = some s' ∧ P s') :
    ∀ s, P s → ∃ s', fillRows tiles draws xs s = some s' ∧ P s' := by
  induction xs with
  | nil => intro s hs; exact ⟨s, rfl, hs⟩
  | cons x xs ih =>
    intro s hs
    obtain ⟨s1, h1, hP1⟩ := hstep x (List.mem_cons_self _ _) s hs
    obtain ⟨s2, h2, hP2⟩ := ih (fun x' hx' => hstep x' (List.mem_cons_of_mem _ hx')) s1 hP1
    refine ⟨s2, ?_, hP2⟩
    simp only [fillRows, h1, h2]

theorem getTile_newMap (w h : Nat) (x y : Int) (hb : inBounds (newMap w h) x y) :
    getTile (newMap w h) x y = some none := by
  have hlen : ((newMap w h).tileMap.length : Int) = (newMap w h).width * (newMap w h).height := by
    simp [newMap]
  obtain ⟨t, ht, hi⟩ := stored_cell (newMap w h) x y hlen hb
  have hz : t = Tile.zero := by
    have hmem := List.getElem?_mem ht
    simp only [newMap] at hmem
    exact List.eq_of_mem_replicate hmem
  rw [getTile_in _ x y hb, hi, hz]
  rfl

theorem fillInv_newMap (w h : Nat) : fillInv (newMap w h) := by
  refine ⟨⟨by simp [newMap], ?_⟩, ?_⟩
  · intro t ht hf
    simp only [newMap] at ht
    rw [List.eq_of_mem_replicate ht] at hf
    exact absurd rfl hf
  · intro x y a hb hg
    rw [getTile_newMap w h x y hb] at hg
    simp at hg

/-- From the all-unresolved grid the fill loop runs to its end without a panic and
ends in a well-formed, consistent map of the same dimensions. -/
theorem fillLoop_inv (tiles : List Tile) (draws : Nat → ℚ) (w h : Nat)
    (hv : validCatalog tiles) :
    ∃ s', fillLoop tiles draws (start w h) = some s' ∧ fillInv s'.m ∧
      s'.m.width = (w : Int) ∧ s'.m.height = (h : Int) := by
  have hcell : ∀ x ∈ List.range w, ∀ y ∈ List.range h, ∀ s,
      (fillInv s.m ∧ s.m.width = (w : Int) ∧ s.m.height = (h : Int)) →
      ∃ s', fillCell tiles draws (x : Int) (y : Int) s = some s' ∧
        (fillInv s'.m ∧ s'.m.width = (w : Int) ∧ s'.m.height = (h : Int)) := by
    intro x hx y hy s ⟨hinv, hw, hh⟩
    have hb : inBounds s.m x y := by
      rw [List.mem_range] at hx hy
      refine ⟨by omega, by rw [hw]; omega, by omega, by rw [hh]; omega⟩
    obtain ⟨s', hs', hinv', hw', hh', _⟩ := fillCell_inv tiles draws x y s hv hinv hb
    exact ⟨s', hs', hinv', by rw [hw', hw], by rw [hh', hh]⟩
  have hcol : ∀ x ∈ List.range w, ∀ s,
      (fillInv s.m ∧ s.m.width = (w : Int) ∧ s.m.height = (h : Int)) →
      ∃ s', fillColumn tiles draws (x : Int) (List.range s.m.height.toNat) s = some s' ∧
        (fillInv s'.m ∧ s'.m.width = (w : Int) ∧ s'.m.height = (h : Int)) := by
    intro x hx s hs
    have hr : s.m.height.toNat = h := by rw [hs.2.2]; simp
    rw [hr]
    exact fillColumn_preserves tiles draws x _ (List.range h) (hcell x hx) s hs
  have hstart : fillInv (start w h).m ∧ (start w h).m.width = (w : Int) ∧ (start w h).m.height = (h : Int) :=
    ⟨fillInv_newMap w h, rfl, rfl⟩
  have hr : (start w h).m.width.toNat = w := by simp [start, newMap]
  unfold fillLoop
  rw [hr]
  exact fillRows_preserves tiles draws _ (List.range w) hcol (start w h) hstart

theorem getEdge_empty (s : Int) (hs : isSide s) : getEdge s empty = some 0 := by
  have hcases : s = 0 ∨ s = 1 ∨ s = 2 ∨ s = 3 := by
    obtain ⟨h0, h3⟩ := hs
    omega
  rcases hcases with rfl | rfl | rfl | rfl <;> decide

/-- C2: global consistency. For every width and height, every validated catalog and
every sequence of draws, the fill loop started on the all-unresolved grid ends without
a panic, and in the final map every two in-bounds adjacent cells that are both resolved
have matching facing edges: down of `(x, y)` equals up of `(x, y+1)`, and right of
`(x, y)` equals left of `(x+1, y)`. -/
theorem fill_globally_consistent (tiles : List Tile) (draws : Nat → ℚ) (w h : Nat)
    (hv : validCatalog tiles) :
    ∃ s', fillLoop tiles draws (start w h) = some s' ∧
      s'.m.width = (w : Int) ∧ s'.m.height = (h : Int) ∧
      ∀ x y a b, inBounds s'.m x y → getTile s'.m x y = some (some a) →
        (inBounds s'.m x (y + 1) → getTile s'.m x (y + 1) = some (some b) →
          ∃ e, getEdge down a = some e ∧ getEdge up b = some e) ∧
        (inBounds s'.m (x + 1) y → getTile s'.m (x + 1) y = some (some b) →
          ∃ e, getEdge right a = some e ∧ getEdge left b = some e) := by
  obtain ⟨s', hs', ⟨hm, hcons⟩, hw, hh⟩ := fillLoop_inv tiles draws w h hv
  refine ⟨s', hs', hw, hh, ?_⟩
  intro x y a b hb hg
  obtain ⟨ga, hga, hgood⟩ := getTile_good s'.m hm x y
  have hagood : goodTile a := hgood a (by rw [hg] at hga; simpa using hga.symm)
  constructor
  · intro _ hgb
    obtain ⟨e, he⟩ := getEdge_isSome down a (by decide) hagood
    have := hcons x y a hb hg (0, 1, down, up) (by decide) b (by simpa using hgb)
    exact ⟨e, he, by rw [← this]; exact he⟩
  · intro _ hgb
    obtain ⟨e, he⟩ := getEdge_isSome right a (by decide) hagood
    have := hcons x y a hb hg (1, 0, right, left) (by decide) b (by simpa using hgb)
    exact ⟨e, he, by rw [← this]; exact he⟩

theorem fill_globally_consistent_witness :
    validCatalog [tileA, tileB, tileZ] ∧
    ∃ s', fillLoop [tileA, tileB, tileZ] (fun _ => 1 / 2) (start 2 2) = some s' ∧
      s'.m.width = ((2 : Nat) : Int) ∧ s'.m.height = ((2 : Nat) : Int) ∧
      ∀ x y a b, inBounds s'.m x y → getTile s'.m x y = some (some a) →
        (inBounds s'.m x (y + 1) → getTile s'.m x (y + 1) = some (some b) →
          ∃ e, getEdge down a = some e ∧ getEdge up b = some e) ∧
        (inBounds s'.m (x + 1) y → getTile s'.m (x + 1) y = some (some b) →
          ∃ e, getEdge right a = some e ∧ getEdge left b = some e) :=
  ⟨by decide, fill_globally_consistent [tileA, tileB, tileZ] (fun _ => 1 / 2) 2 2 (by decide)⟩

/-- C5: boundary constraint. For every width and height, every validated catalog and
every sequence of draws, after the fill loop every resolved cell on the outer edge of
the grid has edge code 0 on each side that faces outside the grid. -/
theorem fill_boundary_zero (tiles : List Tile) (draws : Nat → ℚ) (w h : Nat)
    (hv : validCatalog tiles) :
    ∃ s', fillLoop tiles draws (start w h) = some s' ∧
      s'.m.width = (w : Int) ∧ s'.m.height = (h : Int) ∧
      ∀ x y a, inBounds s'.m x y → getTile s'.m x y = some (some a) →
        (x = 0 → getEdge left a = some 0) ∧ (y = 0 → getEdge up a = some 0) ∧
        (x = (w : Int) - 1 → getEdge right a = some 0) ∧
        (y = (h : Int) - 1 → getEdge down a = some 0) := by
  obtain ⟨s', hs', ⟨hm, hcons⟩, hw, hh⟩ := fillLoop_inv tiles draws w h hv
  refine ⟨s', hs', hw, hh, ?_⟩
  intro x y a hb hg
  have hout : ∀ d ∈ dirs, ¬ inBounds s'.m (x + d.1) (y + d.2.1) →
      getEdge d.2.2.1 a = getEdge d.2.2.2 empty := by
    intro d hd hnb
    exact hcons x y a hb hg d hd empty (getTile_out s'.m _ _ hnb)
  refine ⟨?_, ?_, ?_, ?_⟩
  · intro hx
    have := hout (-1, 0, left, right) (by decide) (by simp only [inBounds]; omega)
    rw [this]; decide
  · intro hy
    have := hout (0, -1, up, down) (by decide) (by simp only [inBounds]; omega)
    rw [this]; decide
  · intro hx
    have := hout (1, 0, right, left) (by decide) (by simp only [inBounds]; omega)
    rw [this]; decide
  · intro hy
    have := hout (0, 1, down, up) (by decide) (by simp only [inBounds]; omega)
    rw [this]; decide

theorem fill_boundary_zero_witness :
    validCatalog [tileA, tileB, tileZ] ∧
    ∃ s', fillLoop [tileA, tileB, tileZ] (fun _ => 1 / 2) (start 2 2) = some s' ∧
      s'.m.width = ((2 : Nat) : Int) ∧ s'.m.height = ((2 : Nat) : Int) ∧
      ∀ x y a, inBounds s'.m x y → getTile s'.m x y = some (some a) →
        (x = 0 → getEdge left a = some 0) ∧ (y = 0 → getEdge up a = some 0) ∧
        (x = ((2 : Nat) : Int) - 1 → getEdge right a = some 0) ∧
        (y = ((2 : Nat) : Int) - 1 → getEdge down a = some 0) :=
  ⟨by decide, fill_boundary_zero [tileA, tileB, tileZ] (fun _ => 1 / 2) 2 2 (by decide)⟩

/-! ## Selection and commit -/

theorem fillCell_scan_none (tiles : List Tile) (draws : Nat → ℚ) (x y : Int) (s : FillState)
    (cands : List Tile) (hp : possibleTiles s.m tiles x y = some cands)
    (hsel : selectScan cands (draws s.used * totWeight cands) 0 = none) :
    fillCell tiles draws x y s = some { m := s.m, used := s.used + 1 } := by
  simp only [fillCell, hp, hsel]

theorem fillCell_nil (tiles : List Tile) (draws : Nat → ℚ) (x y : Int) (s : FillState)
    (hp : possibleTiles s.m tiles x y = some []) :
    fillCell tiles draws x y s = some { m := s.m, used := s.used + 1 } :=
  fillCell_scan_none tiles draws x y s [] hp rfl

/-- C4: weighted selection over exact rationals. For a non-empty candidate list with
all weights positive and a remainder `r` with `0 ≤ r < total`, the scan commits exactly
one candidate: the one at the unique index `i` with
`prefixWeight i ≤ r < prefixWeight (i+1)`, and the fill step stores that candidate in
the cell. With weights 3 and 1 the first candidate is chosen iff `r < 3`, that is iff
the draw in `[0,1)` is below 3/4. -/
theorem weighted_selection (cands : List Tile) (r : ℚ) (_hne : cands ≠ [])
    (hw : ∀ t ∈ cands, 0 < t.Weight) (h0 : 0 ≤ r) (h1 : r < totWeight cands) :
    (∃ i t, selectScan cands r 0 = some i ∧ cands[i]? = some t ∧
      prefixWeight cands i ≤ r ∧ r < prefixWeight cands (i + 1) ∧
      (∀ j, j < cands.length → prefixWeight cands j ≤ r → r < prefixWeight cands (j + 1) →
        j = i) ∧
      (∀ (tiles : List Tile) (draws : Nat → ℚ) (x y : Int) (s : FillState),
        possibleTiles s.m tiles x y = some cands → draws s.used * totWeight cands = r →
        inBounds s.m x y → (s.m.tileMap.length : Int) = s.m.width * s.m.height →
        fillCell tiles draws x y s =
          some { m := { s.m with tileMap := s.m.tileMap.set (x + y * s.m.width).toNat t },
                 used := s.used + 1 })) ∧
    (∀ a b : Tile, a.Weight = 3 → b.Weight = 1 →
      (∀ q : ℚ, 0 ≤ q → q < 4 → (selectScan [a, b] q 0 = some 0 ↔ q < 3)) ∧
      (∀ u : ℚ, 0 ≤ u → u < 1 →
        (selectScan [a, b] (u * totWeight [a, b]) 0 = some 0 ↔ u < 3 / 4))) := by
  have hnn : ∀ t ∈ cands, 0 ≤ t.Weight := fun t ht => le_of_lt (hw t ht)
  constructor
  · obtain ⟨i, hi, hlen, hlo, hhi⟩ := selectScan_spec cands r 0 hw h0 h1
    rw [Nat.zero_add] at hi
    refine ⟨i, cands[i], hi, List.getElem?_eq_getElem hlen, hlo, hhi, ?_, ?_⟩
    · intro j _ hjlo hjhi
      rcases Nat.lt_trichotomy j i with hlt | heq | hgt
      · have := prefixWeight_mono cands hnn (j + 1) i (by omega)
        linarith
      · exact heq
      · have := prefixWeight_mono cands hnn (i + 1) j (by omega)
        linarith
    · intro tiles draws x y s hp hr hb hl
      rcases fillCell_cases tiles draws x y s cands hp hb hl with ⟨hnone, _⟩ | ⟨i', t', hs', ht', hfc⟩
      · rw [hr, hi] at hnone
        simp at hnone
      · rw [hr, hi] at hs'
        simp only [Option.some.injEq] at hs'
        subst hs'
        rw [List.getElem?_eq_getElem hlen] at ht'
        simp only [Option.some.injEq] at ht'
        rw [ht']
        exact hfc
  · intro a b ha hb
    have key : ∀ q : ℚ, (selectScan [a, b] q 0 = some 0 ↔ q < 3) := by
      intro q
      by_cases hq : q - 3 < 0
      · simp only [selectScan, ha, if_pos hq, true_iff]
        linarith
      · simp only [selectScan, ha, hb, if_neg hq]
        constructor
        · intro h
          split at h <;> simp at h
        · intro h
          exact absurd (by linarith) hq
    refine ⟨fun q _ _ => key q, ?_⟩
    intro u _ _
    rw [key]
    simp only [totWeight, ha, hb]
    constructor <;> intro h <;> linarith

theorem weighted_selection_witness :
    [tileA, tileZ] ≠ [] ∧ (∀ t ∈ [tileA, tileZ], 0 < t.Weight) ∧
    ((∃ i t, selectScan [tileA, tileZ] (3 / 2) 0 = some i ∧ [tileA, tileZ][i]? = some t ∧
      prefixWeight [tileA, tileZ] i ≤ 3 / 2 ∧ 3 / 2 < prefixWeight [tileA, tileZ] (i + 1) ∧
      (∀ j, j < [tileA, tileZ].length → prefixWeight [tileA, tileZ] j ≤ 3 / 2 →
        3 / 2 < prefixWeight [tileA, tileZ] (j + 1) → j = i) ∧
      (∀ (tiles : List Tile) (draws : Nat → ℚ) (x y : Int) (s : FillState),
        possibleTiles s.m tiles x y = some [tileA, tileZ] →
        draws s.used * totWeight [tileA, tileZ] = 3 / 2 →
        inBounds s.m x y → (s.m.tileMap.length : Int) = s.m.width * s.m.height →
        fillCell tiles draws x y s =
          some { m := { s.m with tileMap := s.m.tileMap.set (x + y * s.m.width).toNat t },
                 used := s.used + 1 })) ∧
    (∀ a b : Tile, a.Weight = 3 → b.Weight = 1 →
      (∀ q : ℚ, 0 ≤ q → q < 4 → (selectScan [a, b] q 0 = some 0 ↔ q < 3)) ∧
      (∀ u : ℚ, 0 ≤ u → u < 1 →
        (selectScan [a, b] (u * totWeight [a, b]) 0 = some 0 ↔ u < 3 / 4)))) :=
  ⟨by decide, by simp [tileA, tileZ],
    weighted_selection [tileA, tileZ] (3 / 2) (by decide) (by simp [tileA, tileZ])
      (by norm_num) (by norm_num [totWeight, tileA, tileZ])⟩

/-! ## Cells without a usable candidate -/

theorem getEdge_of_edges (s : Int) (fn : String) (e0 e1 e2 e3 : Int) (rots : List Int)
    (rot : Int) (wt : ℚ) (hs : isSide s) (h0 : 0 ≤ rot) (h3 : rot ≤ 3) :
    getEdge s
        { Filename := fn, Edges := [e0, e1, e2, e3], Rotations := rots, rotation := rot,
          Weight := wt } = [e0, e1, e2, e3][((s + rot) % 4).toNat]? :=
  getEdge_eq s _ hs ⟨rfl, h0, h3⟩

/-- On the 1×1 grid all four neighbours of `(0, 0)` are the boundary tile, so a placed
tile is admissible there iff all four of its edge codes are 0. -/
theorem admissible_1x1 (c : Tile) (hg : goodTile c) :
    admissible (newMap 1 1) 0 0 c = true ↔ c.Edges = [0, 0, 0, 0] := by
  obtain ⟨fn, edges, rots, rot, wt⟩ := c
  obtain ⟨hE, h0, h3⟩ := hg
  simp only at hE h0 h3
  match edges, hE with
  | [e0, e1, e2, e3], _ =>
    have hu : getTile (newMap 1 1) 0 (0 - 1) = some (some empty) := by decide
    have hd : getTile (newMap 1 1) 0 (0 + 1) = some (some empty) := by decide
    have hl : getTile (newMap 1 1) (0 - 1) 0 = some (some empty) := by decide
    have hr : getTile (newMap 1 1) (0 + 1) 0 = some (some empty) := by decide
    simp only [admissible, hu, hd, hl, hr, neighbourOk,
      getEdge_empty up (by decide), getEdge_empty down (by decide),
      getEdge_empty left (by decide), getEdge_empty right (by decide),
      getEdge_of_edges up fn e0 e1 e2 e3 rots rot wt (by decide) h0 h3,
      getEdge_of_edges down fn e0 e1 e2 e3 rots rot wt (by decide) h0 h3,
      getEdge_of_edges left fn e0 e1 e2 e3 rots rot wt (by decide) h0 h3,
      getEdge_of_edges right fn e0 e1 e2 e3 rots rot wt (by decide) h0 h3]
    have hcases : rot = 0 ∨ rot = 1 ∨ rot = 2 ∨ rot = 3 := by omega
    rcases hcases with rfl | rfl | rfl | rfl <;>
      simp [up, down, left, right] <;> tauto

theorem possibleTiles_1x1_nil (t : Tile) (ht : goodEntry t) (hnz : t.Edges ≠ [0, 0, 0, 0]) :
    possibleTiles (newMap 1 1) [t] 0 0 = some [] := by
  have hc : goodCatalog [t] := by
    intro t' ht'
    rw [List.mem_singleton] at ht'
    rw [ht']; exact ht
  rw [possibleTiles_eq_spec (newMap 1 1) [t] 0 0 (fillInv_newMap 1 1).1 hc]
  congr 1
  apply List.eq_nil_iff_forall_not_mem.mpr
  intro c hcm
  obtain ⟨t', ht', r, hr, rfl, ha⟩ := (mem_specPossibleTiles _ _ _ _ c).mp hcm
  rw [List.mem_singleton] at ht'
  subst ht'
  have hg : goodTile { t' with rotation := r } := ⟨ht.1, (ht.2 r hr).1, (ht.2 r hr).2⟩
  exact hnz ((admissible_1x1 _ hg).mp ha)

theorem fillLoop_1x1 (tiles : List Tile) (draws : Nat → ℚ) :
    fillLoop tiles draws (start 1 1) =
      fillCell tiles draws 0 0 { m := newMap 1 1, used := 0 } := by
  have h1 : fillLoop tiles draws (start 1 1) =
      fillRows tiles draws [0] { m := newMap 1 1, used := 0 } := rfl
  have h2 : fillColumn tiles draws ((0 : Nat) : Int) (List.range (newMap 1 1).height.toNat)
      { m := newMap 1 1, used := 0 } =
        fillColumn tiles draws 0 [0] { m := newMap 1 1, used := 0 } := rfl
  have h3 : fillCell tiles draws 0 ((0 : Nat) : Int) { m := newMap 1 1, used := 0 } =
      fillCell tiles draws 0 0 { m := newMap 1 1, used := 0 } := rfl
  rw [h1]
  simp only [fillRows]
  rw [h2]
  simp only [fillColumn]
  rw [h3]
  cases fillCell tiles draws 0 0 { m := newMap 1 1, used := 0 } <;> rfl

/-- C3 (as amended): when `possibleTiles` returns the empty list for a cell, the fill
step reports nothing: it takes its draw, leaves the map as it was and the loop goes on
with the next cell. In particular, for a catalog with a single tile whose four edges
are not all 0, filling a 1×1 grid ends normally with the cell unresolved. -/
theorem empty_candidates_skip_cell (tiles : List Tile) (draws : Nat → ℚ) (x : Int) (y : Nat)
    (ys : List Nat) (s : FillState) (hp : possibleTiles s.m tiles x y = some [])
    (t : Tile) (ht : goodEntry t) (hnz : t.Edges ≠ [0, 0, 0, 0]) :
    fillCell tiles draws x y s = some { m := s.m, used := s.used + 1 } ∧
    fillColumn tiles draws x (y :: ys) s =
      fillColumn tiles draws x ys { m := s.m, used := s.used + 1 } ∧
    possibleTiles (newMap 1 1) [t] 0 0 = some [] ∧
    fillLoop [t] draws (start 1 1) = some { m := newMap 1 1, used := 1 } ∧
    getTile (newMap 1 1) 0 0 = some none := by
  have h1 := fillCell_nil tiles draws x y s hp
  have h2 := possibleTiles_1x1_nil t ht hnz
  refine ⟨h1, ?_, h2, ?_, by decide⟩
  · simp only [fillColumn, h1]
  · rw [fillLoop_1x1]
    exact fillCell_nil [t] draws 0 0 _ h2

theorem empty_candidates_skip_cell_witness :
    possibleTiles (start 2 1).m [tileA, tileB] 0 (0 : Nat) = some [] ∧
    goodEntry tileA ∧ tileA.Edges ≠ [0, 0, 0, 0] ∧
    (fillCell [tileA, tileB] (fun _ => 0) 0 (0 : Nat) (start 2 1) =
      some { m := (start 2 1).m, used := (start 2 1).used + 1 } ∧
    fillColumn [tileA, tileB] (fun _ => 0) 0 ((0 : Nat) :: []) (start 2 1) =
      fillColumn [tileA, tileB] (fun _ => 0) 0 []
        { m := (start 2 1).m, used := (start 2 1).used + 1 } ∧
    possibleTiles (newMap 1 1) [tileA] 0 0 = some [] ∧
    fillLoop [tileA] (fun _ => 0) (start 1 1) = some { m := newMap 1 1, used := 1 } ∧
    getTile (newMap 1 1) 0 0 = some none) :=
  ⟨by decide, by decide, by decide,
    empty_candidates_skip_cell [tileA, tileB] (fun _ => 0) 0 0 [] (start 2 1) (by decide)
      tileA (by decide) (by decide)⟩

/-- C3 (as stated) fails: for the single-tile catalog `[tileA]`, whose edges are not
all 0, `possibleTiles` is empty at the only cell of the 1×1 grid, and yet the fill loop
ends normally, with no failure, in a grid whose cell is blank (unresolved). -/
theorem unsatisfiable_cell_not_reported :
    tileA.Edges ≠ [0, 0, 0, 0] ∧
    possibleTiles (start 1 1).m [tileA] 0 0 = some [] ∧
    ∃ s', fillLoop [tileA] (fun _ => 0) (start 1 1) = some s' ∧
      getTile s'.m 0 0 = some none ∧ s'.m = newMap 1 1 := by
  refine ⟨by decide, by decide, ⟨{ m := newMap 1 1, used := 1 }, by decide, by decide, rfl⟩⟩

theorem selectScan_zero_weights (cands : List Tile) :
    ∀ (r : ℚ) (k : Nat), (∀ t ∈ cands, t.Weight = 0) → 0 ≤ r → selectScan cands r k = none := by
  induction cands with
  | nil => intro r k _ _; rfl
  | cons t ts ih =>
    intro r k hw hr
    have ht := hw t (List.mem_cons_self _ _)
    have hts : ∀ t' ∈ ts, t'.Weight = 0 := fun t' h' => hw t' (List.mem_cons_of_mem _ h')
    have hnot : ¬ (r - t.Weight < 0) := by rw [ht]; linarith
    simp only [selectScan, if_neg hnot]
    exact ih _ _ hts (by rw [ht]; linarith)

/-- C8 (as amended): when the candidate list of an in-bounds cell is non-empty but the
total of the candidates' weights is zero, the selection step does not detect it: the
draw is taken and multiplied by the zero total, the scan runs from remainder 0, and the
step returns without error with the map either as it was or with one of the candidates
stored in the cell; the fill loop goes on with the next cell. -/
theorem zero_total_not_detected (tiles : List Tile) (draws : Nat → ℚ) (x : Int) (y : Nat)
    (s : FillState) (cands : List Tile) (hp : possibleTiles s.m tiles x y = some cands)
    (_hne : cands ≠ []) (htot : totWeight cands = 0) (hb : inBounds s.m x y)
    (hlen : (s.m.tileMap.length : Int) = s.m.width * s.m.height) :
    draws s.used * totWeight cands = 0 ∧
    ∃ s', fillCell tiles draws x y s = some s' ∧ s'.used = s.used + 1 ∧
      (s'.m = s.m ∨ ∃ t ∈ cands,
        s'.m = { s.m with tileMap := s.m.tileMap.set (x + y * s.m.width).toNat t }) ∧
      ∀ ys, fillColumn tiles draws x (y :: ys) s = fillColumn tiles draws x ys s' := by
  refine ⟨by rw [htot, mul_zero], ?_⟩
  rcases fillCell_cases tiles draws x y s cands hp hb hlen with ⟨_, hfc⟩ | ⟨i, t, _, hit, hfc⟩
  · refine ⟨_, hfc, rfl, Or.inl rfl, ?_⟩
    intro ys
    simp only [fillColumn, hfc]
  · refine ⟨_, hfc, rfl, Or.inr ⟨t, List.getElem?_mem hit, rfl⟩, ?_⟩
    intro ys
    simp only [fillColumn, hfc]

theorem zero_total_not_detected_witness :
    possibleTiles (start 1 1).m [tileZ0] 0 (0 : Nat) =
      some [tileZ0, { tileZ0 with rotation := 1 }] ∧
    [tileZ0, { tileZ0 with rotation := 1 }] ≠ [] ∧
    totWeight [tileZ0, { tileZ0 with rotation := 1 }] = 0 ∧
    inBounds (start 1 1).m 0 (0 : Nat) ∧
    ((fun _ => 1 / 2 : Nat → ℚ) (start 1 1).used *
        totWeight [tileZ0, { tileZ0 with rotation := 1 }] = 0 ∧
    ∃ s', fillCell [tileZ0] (fun _ => 1 / 2) 0 (0 : Nat) (start 1 1) = some s' ∧
      s'.used = (start 1 1).used + 1 ∧
      (s'.m = (start 1 1).m ∨ ∃ t ∈ [tileZ0, { tileZ0 with rotation := 1 }],
        s'.m = { (start 1 1).m with
          tileMap := (start 1 1).m.tileMap.set (0 + (0 : Nat) * (start 1 1).m.width).toNat t }) ∧
      ∀ ys, fillColumn [tileZ0] (fun _ => 1 / 2) 0 ((0 : Nat) :: ys) (start 1 1) =
        fillColumn [tileZ0] (fun _ => 1 / 2) 0 ys s') :=
  ⟨by decide, by decide, by simp [totWeight, tileZ0, tileZ], by decide,
    zero_total_not_detected [tileZ0] (fun _ => 1 / 2) 0 0 (start 1 1)
      [tileZ0, { tileZ0 with rotation := 1 }] (by decide) (by decide)
      (by simp [totWeight, tileZ0, tileZ]) (by decide) (by decide)⟩

/-- C8 (as stated) fails: for the catalog `[tileZ0]` on the 1×1 grid the candidate list
is non-empty and its total weight is zero, and yet the fill step raises no error: the
fill loop ends normally. -/
theorem degenerate_weights_not_reported :
    possibleTiles (start 1 1).m [tileZ0] 0 0 = some [tileZ0, { tileZ0 with rotation := 1 }] ∧
    totWeight [tileZ0, { tileZ0 with rotation := 1 }] = 0 ∧
    fillLoop [tileZ0] (fun _ => 1 / 2) (start 1 1) = some { m := newMap 1 1, used := 1 } := by
  have hp : possibleTiles (start 1 1).m [tileZ0] 0 0 =
      some [tileZ0, { tileZ0 with rotation := 1 }] := by decide
  refine ⟨hp, by simp [totWeight, tileZ0, tileZ], ?_⟩
  rw [fillLoop_1x1]
  apply fillCell_scan_none [tileZ0] (fun _ => 1 / 2) 0 0 _ _ hp
  apply selectScan_zero_weights
  · intro t ht
    simp only [List.mem_cons, List.mem_singleton, List.not_mem_nil, or_false] at ht
    rcases ht with rfl | rfl <;> rfl
  · simp [totWeight, tileZ0, tileZ]

/-! ## The two-tile scenario -/

/-- C9 (as amended): for the catalog A(edges [0,1,0,1]), B(edges [1,0,1,0]), both at
rotation 0 and weight 1, on the 2×1 grid, for every sequence of draws the candidate list
is empty at both cells and the fill ends with both cells unresolved. Exactly one
assignment meets the left/right conditions of the scenario (left edge of cell (0,0) is
0, left edge of cell (1,0) equals right edge of cell (0,0), right edge of cell (1,0) is
0), namely B in both cells; it is never produced, because B's up and down edges are 1
and the boundary above and below requires 0. -/
theorem two_tile_scenario (draws : Nat → ℚ) :
    possibleTiles (newMap 2 1) [tileA, tileB] 0 0 = some [] ∧
    possibleTiles (newMap 2 1) [tileA, tileB] 1 0 = some [] ∧
    fillLoop [tileA, tileB] draws (start 2 1) = some { m := newMap 2 1, used := 2 } ∧
    getTile (newMap 2 1) 0 0 = some none ∧ getTile (newMap 2 1) 1 0 = some none ∧
    (∀ c0 ∈ [tileA, tileB], ∀ c1 ∈ [tileA, tileB],
      ((getEdge left c0 = some 0 ∧ getEdge left c1 = getEdge right c0 ∧
          getEdge right c1 = some 0) ↔ (c0 = tileB ∧ c1 = tileB))) ∧
    getEdge up tileB = some 1 ∧ getEdge down tileB = some 1 ∧
    admissible (newMap 2 1) 0 0 tileB = false ∧
    admissible (newMap 2 1) 1 0 tileB = false := by
  have hp0 : possibleTiles (newMap 2 1) [tileA, tileB] 0 0 = some [] := by decide
  have hp1 : possibleTiles (newMap 2 1) [tileA, tileB] 1 0 = some [] := by decide
  refine ⟨hp0, hp1, ?_, by decide, by decide, by decide, by decide, by decide, by decide,
    by decide⟩
  have h1 : fillLoop [tileA, tileB] draws (start 2 1) =
      fillRows [tileA, tileB] draws [0, 1] { m := newMap 2 1, used := 0 } := rfl
  have hc0 : fillColumn [tileA, tileB] draws ((0 : Nat) : Int)
      (List.range (newMap 2 1).height.toNat) { m := newMap 2 1, used := 0 } =
        some { m := newMap 2 1, used := 1 } := by
    show fillColumn [tileA, tileB] draws 0 [0] { m := newMap 2 1, used := 0 } = _
    have : fillCell [tileA, tileB] draws 0 ((0 : Nat) : Int) { m := newMap 2 1, used := 0 } =
        some { m := newMap 2 1, used := 1 } := fillCell_nil _ _ _ _ _ hp0
    simp only [fillColumn, this]
  have hc1 : fillColumn [tileA, tileB] draws ((1 : Nat) : Int)
      (List.range (newMap 2 1).height.toNat) { m := newMap 2 1, used := 1 } =
        some { m := newMap 2 1, used := 2 } := by
    show fillColumn [tileA, tileB] draws 1 [0] { m := newMap 2 1, used := 1 } = _
    have : fillCell [tileA, tileB] draws 1 ((0 : Nat) : Int) { m := newMap 2 1, used := 1 } =
        some { m := newMap 2 1, used := 2 } := fillCell_nil _ _ _ _ _ hp1
    simp only [fillColumn, this]
  rw [h1]
  simp only [fillRows, hc0, hc1]

/-- C9 (as stated) fails: with every draw equal to 0 the fill of the 2×1 grid from the
catalog A, B ends with both cells unresolved. -/
theorem scenario_cells_stay_unresolved :
    ∃ s', fillLoop [tileA, tileB] (fun _ => 0) (start 2 1) = some s' ∧
      getTile s'.m 0 0 = some none ∧ getTile s'.m 1 0 = some none :=
  ⟨{ m := newMap 2 1, used := 2 }, by decide, by decide, by decide⟩

/-! ## Frame of a step and the moments of the fill -/

/-- What a step of the fill that returns has done: the dimensions are kept, one draw
is taken, and the slice is either as it was or changed at index `x + y*width` to a
selected candidate. No assumption on the map or the catalog. -/
theorem fillCell_frame (tiles : List Tile) (draws : Nat → ℚ) (x y : Int) (s s' : FillState)
    (h : fillCell tiles draws x y s = some s') :
    s'.m.width = s.m.width ∧ s'.m.height = s.m.height ∧ s'.used = s.used + 1 ∧
    ∃ cands, possibleTiles s.m tiles x y = some cands ∧
      ((selectScan cands (draws s.used * totWeight cands) 0 = none ∧ s'.m = s.m) ∨
        ∃ i t, selectScan cands (draws s.used * totWeight cands) 0 = some i ∧
          cands[i]? = some t ∧ 0 ≤ x + y * s.m.width ∧
          (x + y * s.m.width).toNat < s.m.tileMap.length ∧
          s'.m.tileMap = s.m.tileMap.set (x + y * s.m.width).toNat t) := by
  unfold fillCell at h
  cases hp : possibleTiles s.m tiles x y with
  | none => rw [hp] at h; simp at h
  | some cands =>
    rw [hp] at h
    simp only at h
    cases hsel : selectScan cands (draws s.used * totWeight cands) 0 with
    | none =>
      rw [hsel] at h
      simp only [Option.some.injEq] at h
      subst h
      exact ⟨rfl, rfl, rfl, cands, rfl, Or.inl ⟨hsel, rfl⟩⟩
    | some i =>
      rw [hsel] at h
      simp only at h
      cases hidx : index cands (i : Int) with
      | none => rw [hidx] at h; simp at h
      | some t =>
        rw [hidx] at h
        simp only at h
        have hit : cands[i]? = some t := by
          rw [index_eq_getElem? _ _ (by omega)] at hidx
          simpa using hidx
        unfold store at h
        by_cases hneg : x + y * s.m.width < 0
        · rw [if_pos hneg] at h; simp at h
        · rw [if_neg hneg] at h
          by_cases hlt : (x + y * s.m.width).toNat < s.m.tileMap.length
          · rw [if_pos hlt] at h
            simp only [Option.some.injEq] at h
            subst h
            exact ⟨rfl, rfl, rfl, cands, rfl,
              Or.inr ⟨i, t, hsel, hit, by omega, hlt, rfl⟩⟩
          · rw [if_neg hlt] at h; simp at h

/-- The facts every step keeps: dimensions and length of the slice. -/
theorem fillCell_dims (tiles : List Tile) (draws : Nat → ℚ) (x y : Int) (s s' : FillState)
    (h : fillCell tiles draws x y s = some s') :
    s'.m.width = s.m.width ∧ s'.m.height = s.m.height ∧
      s'.m.tileMap.length = s.m.tileMap.length := by
  obtain ⟨hw, hh, _, cands, _, hc⟩ := fillCell_frame tiles draws x y s s' h
  refine ⟨hw, hh, ?_⟩
  rcases hc with ⟨_, hm⟩ | ⟨i, t, _, _, _, _, htm⟩
  · rw [hm]
  · rw [htm, List.length_set]

theorem fillColumn_dims (tiles : List Tile) (draws : Nat → ℚ) (x : Int) (ys : List Nat) :
    ∀ s s', fillColumn tiles draws x ys s = some s' →
      s'.m.width = s.m.width ∧ s'.m.height = s.m.height ∧
        s'.m.tileMap.length = s.m.tileMap.length := by
  induction ys with
  | nil =>
    intro s s' h
    simp only [fillColumn, Option.some.injEq] at h
    subst h
    exact ⟨rfl, rfl, rfl⟩
  | cons y ys ih =>
    intro s s' h
    simp only [fillColumn] at h
    cases hc : fillCell tiles draws x (y : Int) s with
    | none => rw [hc] at h; simp at h
    | some s1 =>
      rw [hc] at h
      obtain ⟨a1, a2, a3⟩ := fillCell_dims tiles draws x y s s1 hc
      obtain ⟨b1, b2, b3⟩ := ih s1 s' h
      exact ⟨b1.trans a1, b2.trans a2, b3.trans a3⟩

theorem fillRows_dims (tiles : List Tile) (draws : Nat → ℚ) (xs : List Nat) :
    ∀ s s', fillRows tiles draws xs s = some s' →
      s'.m.width = s.m.width ∧ s'.m.height = s.m.height ∧
        s'.m.tileMap.length = s.m.tileMap.length := by
  induction xs with
  | nil =>
    intro s s' h
    simp only [fillRows, Option.some.injEq] at h
    subst h
    exact ⟨rfl, rfl, rfl⟩
  | cons x xs ih =>
    intro s s' h
    simp only [fillRows] at h
    cases hc : fillColumn tiles draws (x : Int) (List.range s.m.height.toNat) s with
    | none => rw [hc] at h; simp at h
    | some s1 =>
      rw [hc] at h
      obtain ⟨a1, a2, a3⟩ := fillColumn_dims tiles draws x _ s s1 hc
      obtain ⟨b1, b2, b3⟩ := ih s1 s' h
      exact ⟨b1.trans a1, b2.trans a2, b3.trans a3⟩

theorem fillColumn_append (tiles : List Tile) (draws : Nat → ℚ) (x : Int) (ys zs : List Nat) :
    ∀ s, fillColumn tiles draws x (ys ++ zs) s =
      (fillColumn tiles draws x ys s).bind (fillColumn tiles draws x zs) := by
  induction ys with
  | nil => intro s; rfl
  | cons y ys ih =>
    intro s
    simp only [List.cons_append, fillColumn]
    cases fillCell tiles draws x (y : Int) s with
    | none => rfl
    | some s1 => exact ih s1

theorem fillRows_append (tiles : List Tile) (draws : Nat → ℚ) (xs zs : List Nat) :
    ∀ s, fillRows tiles draws (xs ++ zs) s =
      (fillRows tiles draws xs s).bind (fillRows tiles draws zs) := by
  induction xs with
  | nil => intro s; rfl
  | cons x xs ih =>
    intro s
    simp only [List.cons_append, fillRows]
    cases fillColumn tiles draws (x : Int) (List.range s.m.height.toNat) s with
    | none => rfl
    | some s1 => exact ih s1

/-- The moment after cell `(x, y)` is the moment before it followed by its step. -/
theorem fillBefore_succ (tiles : List Tile) (draws : Nat → ℚ) (x y : Nat) (s0 : FillState) :
    fillBefore tiles draws x (y + 1) s0 =
      (fillBefore tiles draws x y s0).bind (fillCell tiles draws x y) := by
  unfold fillBefore
  cases fillRows tiles draws (List.range x) s0 with
  | none => rfl
  | some s1 =>
    simp only
    rw [List.range_succ, fillColumn_append]
    cases fillColumn tiles draws x (List.range y) s1 with
    | none => rfl
    | some s2 =>
      simp only [Option.bind, fillColumn]
      cases fillCell tiles draws x y s2 <;> rfl

/-- The end of column `x` is the start of column `x + 1`. -/
theorem fillBefore_next_column (tiles : List Tile) (draws : Nat → ℚ) (x h : Nat)
    (s0 : FillState) (hh : s0.m.height = (h : Int)) :
    fillBefore tiles draws (x + 1) 0 s0 = fillBefore tiles draws x h s0 := by
  unfold fillBefore
  rw [List.range_succ, fillRows_append]
  cases hr : fillRows tiles draws (List.range x) s0 with
  | none => rfl
  | some s1 =>
    have hd := (fillRows_dims tiles draws _ s0 s1 hr).2.1
    have hn : s1.m.height.toNat = h := by rw [hd, hh]; simp
    simp only [Option.bind, fillRows, List.range_zero, fillColumn, hn]
    cases fillColumn tiles draws x (List.range h) s1 <;> rfl

/-- The fill loop ends in the moment `(width, 0)`. -/
theorem fillLoop_eq_fillBefore (tiles : List Tile) (draws : Nat → ℚ) (w h : Nat) :
    fillLoop tiles draws (start w h) = fillBefore tiles draws w 0 (start w h) := by
  unfold fillLoop fillBefore
  have hw : (start w h).m.width.toNat = w := by simp [start, newMap]
  rw [hw]
  cases fillRows tiles draws (List.range w) (start w h) <;> rfl

/-- Induction along the scan: a property that holds at the start, is kept by the step
of every cell and by the passage from one column to the next, holds at every moment
the fill reaches. -/
theorem fillBefore_induct (tiles : List Tile) (draws : Nat → ℚ) (w h : Nat)
    (P : Nat → Nat → FillState → Prop) (h0 : P 0 0 (start w h))
    (hstep : ∀ x y s s', x < w → y < h →
      fillBefore tiles draws x y (start w h) = some s → P x y s →
      fillCell tiles draws x y s = some s' → P x (y + 1) s')
    (hcol : ∀ x s, x < w → fillBefore tiles draws x h (start w h) = some s →
      P x h s → P (x + 1) 0 s) :
    ∀ x y, isMoment w h x y → ∀ s, fillBefore tiles draws x y (start w h) = some s →
      P x y s := by
  have hB : ∀ x, x < w → (∀ s, fillBefore tiles draws x 0 (start w h) = some s → P x 0 s) →
      ∀ y, y ≤ h → ∀ s, fillBefore tiles draws x y (start w h) = some s → P x y s := by
    intro x hx hA y
    induction y with
    | zero => intro _ s hs; exact hA s hs
    | succ y ih =>
      intro hy s' hs'
      rw [fillBefore_succ] at hs'
      cases hb : fillBefore tiles draws x y (start w h) with
      | none => rw [hb] at hs'; simp at hs'
      | some s =>
        rw [hb] at hs'
        exact hstep x y s s' hx (by omega) hb (ih (by omega) s hb) hs'
  have hA : ∀ x, x ≤ w → ∀ s, fillBefore tiles draws x 0 (start w h) = some s → P x 0 s := by
    intro x
    induction x with
    | zero =>
      intro _ s hs
      have : fillBefore tiles draws 0 0 (start w h) = some (start w h) := rfl
      rw [this] at hs
      simp only [Option.some.injEq] at hs
      rw [← hs]; exact h0
    | succ x ih =>
      intro hx s hs
      rw [fillBefore_next_column tiles draws x h (start w h) rfl] at hs
      exact hcol x s (by omega) hs (hB x (by omega) (ih (by omega)) h (le_refl _) s hs)
  intro x y hm s hs
  rcases hm with ⟨hx, hy⟩ | ⟨hx, hy⟩
  · exact hB x hx (hA x (by omega)) y hy s hs
  · subst hy
    exact hA x (by omega) s hs

theorem nat_index_lt (x y w h : Nat) (hx : x < w) (hy : y < h) : x + y * w < w * h := by
  have h1 : (y + 1) * w ≤ h * w := Nat.mul_le_mul_right w (by omega)
  have h2 : (y + 1) * w = y * w + w := by ring
  have h3 : w * h = h * w := Nat.mul_comm w h
  omega

theorem nat_index_inj (x y x' y' w : Nat) (hx : x < w) (hx' : x' < w)
    (h : x + y * w = x' + y' * w) : x = x' ∧ y = y' := by
  have hy : y = y' := by
    rcases Nat.lt_trichotomy y y' with hlt | heq | hgt
    · have h1 : (y + 1) * w ≤ y' * w := Nat.mul_le_mul_right w (by omega)
      have h2 : (y + 1) * w = y * w + w := by ring
      omega
    · exact heq
    · have h1 : (y' + 1) * w ≤ y * w := Nat.mul_le_mul_right w (by omega)
      have h2 : (y' + 1) * w = y' * w + w := by ring
      omega
  subst hy
  exact ⟨by omega, rfl⟩

theorem int_index_toNat (x y w : Nat) : ((x : Int) + (y : Int) * (w : Int)).toNat = x + y * w := by
  have : ((x : Int) + (y : Int) * (w : Int)) = ((x + y * w : Nat) : Int) := by push_cast; ring
  rw [this, Int.toNat_ofNat]

theorem baseInv_start (w h : Nat) : baseInv w h 0 0 (start w h) := by
  refine ⟨rfl, rfl, by simp [start, newMap], by simp [start], ?_⟩
  intro x' y' hx' hy' _
  simp only [start, newMap, List.getElem?_replicate]
  rw [if_pos (nat_index_lt x' y' w h hx' hy')]

theorem baseInv_step (tiles : List Tile) (draws : Nat → ℚ) (w h x y : Nat) (s s' : FillState)
    (hx : x < w) (hinv : baseInv w h x y s)
    (hc : fillCell tiles draws x y s = some s') : baseInv w h x (y + 1) s' := by
  obtain ⟨hw, hh, hlen, hused, hz⟩ := hinv
  obtain ⟨hw', hh', hu', cands, _, hcase⟩ := fillCell_frame tiles draws x y s s' hc
  have hl' := (fillCell_dims tiles draws x y s s' hc).2.2
  refine ⟨hw'.trans hw, hh'.trans hh, hl'.trans hlen, by rw [hu', hused]; ring, ?_⟩
  intro x' y' hx' hy' hnb
  have hnb0 : ¬ scanBefore x' y' x y := by
    intro hb
    apply hnb
    rcases hb with hb | ⟨hb1, hb2⟩
    · exact Or.inl hb
    · exact Or.inr ⟨hb1, by omega⟩
  rcases hcase with ⟨_, hm⟩ | ⟨i, t, _, _, _, _, htm⟩
  · rw [hm]; exact hz x' y' hx' hy' hnb0
  · rw [htm, hw, int_index_toNat, List.getElem?_set]
    have hne : ¬ (x + y * w = x' + y' * w) := by
      intro heq
      obtain ⟨e1, e2⟩ := nat_index_inj x y x' y' w hx hx' heq
      apply hnb
      exact Or.inr ⟨e1.symm, by omega⟩
    rw [if_neg hne]
    exact hz x' y' hx' hy' hnb0

theorem baseInv_column (w h x : Nat) (s : FillState) (hinv : baseInv w h x h s) :
    baseInv w h (x + 1) 0 s := by
  obtain ⟨hw, hh, hlen, hused, hz⟩ := hinv
  refine ⟨hw, hh, hlen, by rw [hused]; ring, ?_⟩
  intro x' y' hx' hy' hnb
  apply hz x' y' hx' hy'
  intro hb
  apply hnb
  rcases hb with hb | ⟨hb1, _⟩
  · exact Or.inl (by omega)
  · exact Or.inl (by omega)

/-- The base facts hold at every moment the fill of a `w`×`h` grid reaches. -/
theorem fillBefore_baseInv (tiles : List Tile) (draws : Nat → ℚ) (w h x y : Nat)
    (hm : isMoment w h x y) (s : FillState)
    (hs : fillBefore tiles draws x y (start w h) = some s) : baseInv w h x y s :=
  fillBefore_induct tiles draws w h (baseInv w h) (baseInv_start w h)
    (fun x y s s' hx _ _ hinv hc => baseInv_step tiles draws w h x y s s' hx hinv hc)
    (fun x s _ _ hinv => baseInv_column w h x s hinv) x y hm s hs

/-! ## Where candidates come from -/

theorem rotationLoop_mem (u l d r : Option Tile) (rs : List Int) :
    ∀ (tile : Tile) (res res' : List Tile), rotationLoop u l d r tile rs res = some res' →
      ∀ c ∈ res', c ∈ res ∨ ∃ q ∈ rs, c = { tile with rotation := q } := by
  induction rs with
  | nil =>
    intro tile res res' h c hc
    simp only [rotationLoop, Option.some.injEq] at h
    subst h
    exact Or.inl hc
  | cons q qs ih =>
    intro tile res res' h c hc
    rw [rotationLoop] at h
    cases ha : admitted u l d r { tile with rotation := q } with
    | none => rw [ha] at h; simp at h
    | some b =>
      rw [ha] at h
      cases b with
      | true =>
        simp only at h
        rcases ih { tile with rotation := q } _ res' h c hc with h1 | ⟨q', hq', rfl⟩
        · rcases List.mem_append.mp h1 with h2 | h2
          · exact Or.inl h2
          · rw [List.mem_singleton] at h2
            exact Or.inr ⟨q, List.mem_cons_self _ _, h2⟩
        · exact Or.inr ⟨q', List.mem_cons_of_mem _ hq', rfl⟩
      | false =>
        simp only at h
        rcases ih { tile with rotation := q } _ res' h c hc with h1 | ⟨q', hq', rfl⟩
        · exact Or.inl h1
        · exact Or.inr ⟨q', List.mem_cons_of_mem _ hq', rfl⟩

theorem tileLoop_mem (u l d r : Option Tile) (tiles : List Tile) :
    ∀ (res res' : List Tile), tileLoop u l d r tiles res = some res' →
      ∀ c ∈ res', c ∈ res ∨ ∃ t ∈ tiles, ∃ q ∈ t.Rotations, c = { t with rotation := q } := by
  induction tiles with
  | nil =>
    intro res res' h c hc
    simp only [tileLoop, Option.some.injEq] at h
    subst h
    exact Or.inl hc
  | cons t ts ih =>
    intro res res' h c hc
    rw [tileLoop] at h
    cases hr : rotationLoop u l d r t t.Rotations res with
    | none => rw [hr] at h; simp at h
    | some res1 =>
      rw [hr] at h
      simp only at h
      rcases ih res1 res' h c hc with h1 | ⟨t', ht', q, hq, rfl⟩
      · rcases rotationLoop_mem u l d r t.Rotations t res res1 hr c h1 with h2 | ⟨q, hq, rfl⟩
        · exact Or.inl h2
        · exact Or.inr ⟨t, List.mem_cons_self _ _, q, hq, rfl⟩
      · exact Or.inr ⟨t', List.mem_cons_of_mem _ ht', q, hq, rfl⟩

/-- Every candidate `possibleTiles` returns, for any map and catalog, is a copy of a
catalog tile whose rotation is one of that tile's `Rotations`. -/
theorem possibleTiles_mem (m : Map) (tiles : List Tile) (x y : Int) (cands : List Tile)
    (h : possibleTiles m tiles x y = some cands) :
    ∀ c ∈ cands, ∃ t ∈ tiles, ∃ q ∈ t.Rotations, c = { t with rotation := q } := by
  unfold possibleTiles at h
  cases hu : getTile m x (y - 1) with
  | none => rw [hu] at h; simp at h
  | some u =>
    cases hl : getTile m (x - 1) y with
    | none => rw [hu, hl] at h; simp at h
    | some l =>
      cases hd : getTile m x (y + 1) with
      | none => rw [hu, hl, hd] at h; simp at h
      | some d =>
        cases hr : getTile m (x + 1) y with
        | none => rw [hu, hl, hd, hr] at h; simp at h
        | some r =>
          rw [hu, hl, hd, hr] at h
          simp only at h
          intro c hc
          rcases tileLoop_mem u l d r tiles [] cands h c hc with h1 | h1
          · simp at h1
          · exact h1

/-! ## Reading a cell -/

theorem getTile_of_stored (m : Map) (x y : Int) (t : Tile) (hb : inBounds m x y)
    (ht : m.tileMap[(x + y * m.width).toNat]? = some t) :
    getTile m x y = if t.Filename = "" then some none else some (some t) := by
  obtain ⟨h0, _⟩ := cell_index_bounds x y m.width m.height hb.1 hb.2.1 hb.2.2.1 hb.2.2.2
  rw [getTile_in m x y hb, index_eq_getElem? _ _ h0, ht]

/-- Two maps of the same dimensions whose slices agree at the index of an in-bounds
cell read the same through `getTile` there. -/
theorem getTile_congr (m m' : Map) (x y : Int) (hw : m'.width = m.width)
    (hh : m'.height = m.height) (hb : inBounds m x y)
    (he : m'.tileMap[(x + y * m.width).toNat]? = m.tileMap[(x + y * m.width).toNat]?) :
    getTile m' x y = getTile m x y := by
  have hb' : inBounds m' x y := by
    unfold inBounds
    rw [hw, hh]
    exact hb
  obtain ⟨h0, _⟩ := cell_index_bounds x y m.width m.height hb.1 hb.2.1 hb.2.2.1 hb.2.2.2
  rw [getTile_in m x y hb, getTile_in m' x y hb', hw, index_eq_getElem? _ _ h0,
    index_eq_getElem? _ _ h0, he]

theorem inBounds_of_lt (m : Map) (w h x y : Nat) (hw : m.width = (w : Int))
    (hh : m.height = (h : Int)) (hx : x < w) (hy : y < h) : inBounds m x y := by
  unfold inBounds
  rw [hw, hh]
  omega

/-- At a moment of the fill, a cell that does not come before the moment in scan order
is unresolved. -/
theorem getTile_later (w h x y : Nat) (s : FillState) (hinv : baseInv w h x y s)
    (x' y' : Nat) (hx' : x' < w) (hy' : y' < h) (hnb : ¬ scanBefore x' y' x y) :
    getTile s.m x' y' = some none := by
  obtain ⟨hw, hh, _, _, hz⟩ := hinv
  have hb := inBounds_of_lt s.m w h x' y' hw hh hx' hy'
  have hst : s.m.tileMap[((x' : Int) + (y' : Int) * s.m.width).toNat]? = some Tile.zero := by
    rw [hw, int_index_toNat]
    exact hz x' y' hx' hy' hnb
  rw [getTile_of_stored s.m x' y' Tile.zero hb hst]
  rfl

/-! ## Scan-order visibility -/

/-- C14: at the moment cell `(x, y)` of the fill of the all-unresolved `w`×`h` grid is
processed, every cell that comes at or after `(x, y)` in scan order (x outer, y inner)
is unresolved; in particular the in-bounds down neighbour `(x, y+1)` and right
neighbour `(x+1, y)` are unresolved, so `possibleTiles` at `(x, y)` equals the
enumeration that looks up only the up and left neighbours and takes the boundary code 0
on a down or right side that lies outside the grid. -/
theorem later_cells_unresolved (tiles : List Tile) (draws : Nat → ℚ) (w h x y : Nat)
    (s : FillState) (hx : x < w) (hy : y < h)
    (hs : fillBefore tiles draws x y (start w h) = some s) :
    (∀ x' y' : Nat, x' < w → y' < h → ¬ scanBefore x' y' x y →
      getTile s.m x' y' = some none) ∧
    (y + 1 < h → getTile s.m x ((y : Int) + 1) = some none) ∧
    (x + 1 < w → getTile s.m ((x : Int) + 1) y = some none) ∧
    possibleTiles s.m tiles x y = possibleTilesUpLeft s.m tiles x y := by
  have hinv := fillBefore_baseInv tiles draws w h x y (Or.inl ⟨hx, by omega⟩) s hs
  have hlater := getTile_later w h x y s hinv
  obtain ⟨hw, hh, _, _, _⟩ := hinv
  have hdown : y + 1 < h → getTile s.m x ((y : Int) + 1) = some none := by
    intro hlt
    have := hlater x (y + 1) hx hlt (by unfold scanBefore; omega)
    simpa using this
  have hright : x + 1 < w → getTile s.m ((x : Int) + 1) y = some none := by
    intro hlt
    have := hlater (x + 1) y hlt hy (by unfold scanBefore; omega)
    simpa using this
  refine ⟨hlater, hdown, hright, ?_⟩
  have hd : getTile s.m x ((y : Int) + 1) =
      some (if (y : Int) + 1 ≥ s.m.height then some empty else none) := by
    by_cases hlt : y + 1 < h
    · rw [hdown hlt, if_neg (by rw [hh]; omega)]
    · rw [getTile_out s.m _ _ (by unfold inBounds; rw [hh]; omega), if_pos (by rw [hh]; omega)]
  have hr : getTile s.m ((x : Int) + 1) y =
      some (if (x : Int) + 1 ≥ s.m.width then some empty else none) := by
    by_cases hlt : x + 1 < w
    · rw [hright hlt, if_neg (by rw [hw]; omega)]
    · rw [getTile_out s.m _ _ (by unfold inBounds; rw [hw]; omega), if_pos (by rw [hw]; omega)]
  unfold possibleTiles possibleTilesUpLeft
  rw [hd, hr]

/-! ## Cells that have been processed -/

/-- A cell keeps, at every later moment of the fill, the content it had right after its
own step. -/
theorem cell_persists (tiles : List Tile) (draws : Nat → ℚ) (w h x y : Nat)
    (hm : isMoment w h x y) (s : FillState)
    (hs : fillBefore tiles draws x y (start w h) = some s) :
    ∀ (x' y' : Nat) (s2 : FillState), x' < w → y' < h → scanBefore x' y' x y →
      fillBefore tiles draws x' (y' + 1) (start w h) = some s2 →
      s.m.tileMap[x' + y' * w]? = s2.m.tileMap[x' + y' * w]? := by
  refine fillBefore_induct tiles draws w h
    (fun x y s => ∀ (x' y' : Nat) (s2 : FillState), x' < w → y' < h → scanBefore x' y' x y →
      fillBefore tiles draws x' (y' + 1) (start w h) = some s2 →
      s.m.tileMap[x' + y' * w]? = s2.m.tileMap[x' + y' * w]?) ?_ ?_ ?_ x y hm s hs
  · intro x' y' s2 _ _ hb
    unfold scanBefore at hb
    omega
  · intro x y s s' hx hy hsb ih hc x' y' s2 hx' hy' hb hs2
    have hnext : fillBefore tiles draws x (y + 1) (start w h) = some s' := by
      rw [fillBefore_succ, hsb]
      exact hc
    by_cases hxy : x' = x ∧ y' = y
    · obtain ⟨rfl, rfl⟩ := hxy
      rw [hnext] at hs2
      simp only [Option.some.injEq] at hs2
      rw [hs2]
    · have hb0 : scanBefore x' y' x y := by
        unfold scanBefore at hb ⊢
        omega
      rw [← ih x' y' s2 hx' hy' hb0 hs2]
      have hinv := fillBefore_baseInv tiles draws w h x y (Or.inl ⟨hx, by omega⟩) s hsb
      obtain ⟨_, _, _, cands, _, hcase⟩ := fillCell_frame tiles draws x y s s' hc
      rcases hcase with ⟨_, hmeq⟩ | ⟨i, t, _, _, _, _, htm⟩
      · rw [hmeq]
      · rw [htm, hinv.1, int_index_toNat, List.getElem?_set]
        have hne : ¬ (x + y * w = x' + y' * w) := by
          intro heq
          obtain ⟨e1, e2⟩ := nat_index_inj x y x' y' w hx hx' heq
          exact hxy ⟨e1.symm, e2.symm⟩
        rw [if_neg hne]
  · intro x s hx _ ih x' y' s2 hx' hy' hb hs2
    apply ih x' y' s2 hx' hy' _ hs2
    unfold scanBefore at hb ⊢
    omega

/-- The reading through `getTile` of a processed cell at any later moment is its
reading right after its own step. -/
theorem getTile_persists (tiles : List Tile) (draws : Nat → ℚ) (w h x y : Nat)
    (hm : isMoment w h x y) (s : FillState)
    (hs : fillBefore tiles draws x y (start w h) = some s)
    (x' y' : Nat) (s2 : FillState) (hx' : x' < w) (hy' : y' < h)
    (hb : scanBefore x' y' x y)
    (hs2 : fillBefore tiles draws x' (y' + 1) (start w h) = some s2) :
    getTile s.m x' y' = getTile s2.m x' y' := by
  have hinv := fillBefore_baseInv tiles draws w h x y hm s hs
  have hinv2 := fillBefore_baseInv tiles draws w h x' (y' + 1) (Or.inl ⟨hx', by omega⟩) s2 hs2
  have hb2 := inBounds_of_lt s2.m w h x' y' hinv2.1 hinv2.2.1 hx' hy'
  apply getTile_congr s2.m s.m x' y' (hinv.1.trans hinv2.1.symm)
    (hinv.2.1.trans hinv2.2.1.symm) hb2
  rw [hinv2.1, int_index_toNat]
  exact cell_persists tiles draws w h x y hm s hs x' y' s2 hx' hy' hb hs2

/-- With a validated catalog every moment of the fill is reached without a panic, in a
well-formed and consistent map. -/
theorem fillBefore_total (tiles : List Tile) (draws : Nat → ℚ) (w h x y : Nat)
    (hv : validCatalog tiles) (hm : isMoment w h x y) :
    ∃ s, fillBefore tiles draws x y (start w h) = some s ∧ fillInv s.m := by
  have hcell : ∀ x' ∈ List.range w, ∀ y' ∈ List.range h, ∀ s,
      (fillInv s.m ∧ s.m.width = (w : Int) ∧ s.m.height = (h : Int)) →
      ∃ s', fillCell tiles draws (x' : Int) (y' : Int) s = some s' ∧
        (fillInv s'.m ∧ s'.m.width = (w : Int) ∧ s'.m.height = (h : Int)) := by
    intro x' hx' y' hy' s ⟨hinv, hw, hh⟩
    rw [List.mem_range] at hx' hy'
    have hb : inBounds s.m x' y' := inBounds_of_lt s.m w h x' y' hw hh hx' hy'
    obtain ⟨s', hs', hinv', hw', hh', _⟩ := fillCell_inv tiles draws x' y' s hv hinv hb
    exact ⟨s', hs', hinv', by rw [hw', hw], by rw [hh', hh]⟩
  have hcol : ∀ x' ∈ List.range w, ∀ s,
      (fillInv s.m ∧ s.m.width = (w : Int) ∧ s.m.height = (h : Int)) →
      ∃ s', fillColumn tiles draws (x' : Int) (List.range s.m.height.toNat) s = some s' ∧
        (fillInv s'.m ∧ s'.m.width = (w : Int) ∧ s'.m.height = (h : Int)) := by
    intro x' hx' s hs
    have hr : s.m.height.toNat = h := by rw [hs.2.2]; simp
    rw [hr]
    exact fillColumn_preserves tiles draws x' _ (List.range h) (hcell x' hx') s hs
  have hstart : fillInv (start w h).m ∧ (start w h).m.width = (w : Int) ∧
      (start w h).m.height = (h : Int) := ⟨fillInv_newMap w h, rfl, rfl⟩
  have hxw : x ≤ w := by rcases hm with ⟨h1, _⟩ | ⟨h1, _⟩ <;> omega
  obtain ⟨s1, hs1, hP1⟩ := fillRows_preserves tiles draws _ (List.range x)
    (fun x' hx' => hcol x' (by rw [List.mem_range] at hx' ⊢; omega)) (start w h) hstart
  unfold fillBefore
  rw [hs1]
  simp only
  rcases hm with ⟨hx, hy⟩ | ⟨_, hy⟩
  · obtain ⟨s2, hs2, hP2⟩ := fillColumn_preserves tiles draws x _ (List.range y)
      (fun y' hy' => hcell x (List.mem_range.mpr hx) y'
        (by rw [List.mem_range] at hy' ⊢; omega)) s1 hP1
    exact ⟨s2, hs2, hP2.1⟩
  · subst hy
    exact ⟨s1, rfl, hP1.1⟩

/-! ## Sample runs -/

theorem sample_first_step :
    fillCell sampleCatalog sampleDraws 0 0 (start 2 2) = some sampleState01 := by
  decide!

theorem sample_moment :
    fillBefore sampleCatalog sampleDraws 1 0 (start 2 2) = some sampleState10 := by
  decide!

theorem later_cells_unresolved_witness :
    1 < 2 ∧ 0 < 2 ∧ fillBefore sampleCatalog sampleDraws 1 0 (start 2 2) = some sampleState10 ∧
    ((∀ x' y' : Nat, x' < 2 → y' < 2 → ¬ scanBefore x' y' 1 0 →
      getTile sampleState10.m x' y' = some none) ∧
    (0 + 1 < 2 → getTile sampleState10.m (1 : Nat) (((0 : Nat) : Int) + 1) = some none) ∧
    (1 + 1 < 2 → getTile sampleState10.m (((1 : Nat) : Int) + 1) (0 : Nat) = some none) ∧
    possibleTiles sampleState10.m sampleCatalog (1 : Nat) (0 : Nat) =
      possibleTilesUpLeft sampleState10.m sampleCatalog (1 : Nat) (0 : Nat)) :=
  ⟨by decide, by decide, sample_moment,
    later_cells_unresolved sampleCatalog sampleDraws 2 2 1 0 sampleState10 (by decide)
      (by decide) sample_moment⟩

/-! ## Draws -/

theorem fillCell_congr_draws (tiles : List Tile) (draws draws' : Nat → ℚ) (x y : Int)
    (s : FillState) (h : draws' s.used = draws s.used) :
    fillCell tiles draws' x y s = fillCell tiles draws x y s := by
  unfold fillCell
  rw [h]

theorem scan_index_lt (x y w h : Nat) (hx : x < w) (hy : y < h) : x * h + y < w * h := by
  have h1 : (x + 1) * h ≤ w * h := Nat.mul_le_mul_right h (by omega)
  have h2 : (x + 1) * h = x * h + h := by ring
  omega

/-- Two random sources that agree on the first `w*h` draws drive the fill of the
`w`×`h` grid through the same states. -/
theorem fillBefore_congr_draws (tiles : List Tile) (draws draws' : Nat → ℚ) (w h : Nat)
    (hd : ∀ k, k < w * h → draws' k = draws k) :
    ∀ x y, isMoment w h x y →
      fillBefore tiles draws' x y (start w h) = fillBefore tiles draws x y (start w h) := by
  have hB : ∀ x, x < w →
      fillBefore tiles draws' x 0 (start w h) = fillBefore tiles draws x 0 (start w h) →
      ∀ y, y ≤ h →
        fillBefore tiles draws' x y (start w h) = fillBefore tiles draws x y (start w h) := by
    intro x hx hA y
    induction y with
    | zero => intro _; exact hA
    | succ y ih =>
      intro hy
      rw [fillBefore_succ, fillBefore_succ, ih (by omega)]
      cases hb : fillBefore tiles draws x y (start w h) with
      | none => rfl
      | some s =>
        have hinv := fillBefore_baseInv tiles draws w h x y (Or.inl ⟨hx, by omega⟩) s hb
        have hu : s.used < w * h := by
          rw [hinv.2.2.2.1]
          exact scan_index_lt x y w h hx (by omega)
        exact fillCell_congr_draws tiles draws draws' x y s (hd _ hu)
  have hA : ∀ x, x ≤ w →
      fillBefore tiles draws' x 0 (start w h) = fillBefore tiles draws x 0 (start w h) := by
    intro x
    induction x with
    | zero => intro _; rfl
    | succ x ih =>
      intro hx
      rw [fillBefore_next_column tiles draws' x h (start w h) rfl,
        fillBefore_next_column tiles draws x h (start w h) rfl]
      exact hB x (by omega) (ih (by omega)) h (le_refl _)
  intro x y hm
  rcases hm with ⟨hx, hy⟩ | ⟨hx, hy⟩
  · exact hB x hx (hA x (by omega)) y hy
  · subst hy
    exact hA x (by omega)

/-- C13: determinism under a fixed random stream. Every step of the fill takes exactly
one draw, the draw at the position given by the number of draws taken so far, whether
or not the cell has candidates; cell `(x, y)` of the `w`×`h` grid is processed with
`x*h + y` draws taken (scan order, x outer, y inner), the loop ends with `w*h` draws
taken, and its result depends on the random source only through the first `w*h` draws:
runs with the same catalog, dimensions and draws end in the same grid. With a validated
catalog the loop does end. -/
theorem one_draw_per_cell (tiles : List Tile) (draws : Nat → ℚ) (w h : Nat) :
    (∀ (x y : Int) (s s' : FillState), fillCell tiles draws x y s = some s' →
      s'.used = s.used + 1) ∧
    (∀ (x y : Int) (s : FillState), possibleTiles s.m tiles x y = some [] →
      fillCell tiles draws x y s = some { m := s.m, used := s.used + 1 }) ∧
    (∀ (draws' : Nat → ℚ) (x y : Int) (s : FillState), draws' s.used = draws s.used →
      fillCell tiles draws' x y s = fillCell tiles draws x y s) ∧
    (∀ (x y : Nat) (s : FillState), isMoment w h x y →
      fillBefore tiles draws x y (start w h) = some s → s.used = x * h + y) ∧
    (∀ s', fillLoop tiles draws (start w h) = some s' → s'.used = w * h) ∧
    (∀ draws' : Nat → ℚ, (∀ k, k < w * h → draws' k = draws k) →
      fillLoop tiles draws' (start w h) = fillLoop tiles draws (start w h)) ∧
    (validCatalog tiles → ∃ s', fillLoop tiles draws (start w h) = some s') := by
  refine ⟨?_, ?_, ?_, ?_, ?_, ?_, ?_⟩
  · intro x y s s' hc
    exact (fillCell_frame tiles draws x y s s' hc).2.2.1
  · intro x y s hp
    exact fillCell_nil tiles draws x y s hp
  · intro draws' x y s hd
    exact fillCell_congr_draws tiles draws draws' x y s hd
  · intro x y s hm hs
    exact (fillBefore_baseInv tiles draws w h x y hm s hs).2.2.2.1
  · intro s' hs'
    rw [fillLoop_eq_fillBefore] at hs'
    have := (fillBefore_baseInv tiles draws w h w 0 (Or.inr ⟨rfl, rfl⟩) s' hs').2.2.2.1
    rw [this]; ring
  · intro draws' hd
    rw [fillLoop_eq_fillBefore, fillLoop_eq_fillBefore]
    exact fillBefore_congr_draws tiles draws draws' w h hd w 0 (Or.inr ⟨rfl, rfl⟩)
  · intro hv
    obtain ⟨s', hs', _⟩ := fillLoop_inv tiles draws w h hv
    exact ⟨s', hs'⟩

theorem one_draw_per_cell_witness :
    validCatalog sampleCatalog ∧
    ∃ s', fillLoop sampleCatalog sampleDraws (start 2 2) = some s' ∧ s'.used = 2 * 2 := by
  have hv : validCatalog sampleCatalog := by decide
  have h := one_draw_per_cell sampleCatalog sampleDraws 2 2
  obtain ⟨s', hs'⟩ := h.2.2.2.2.2.2 hv
  exact ⟨hv, s', hs', h.2.2.2.2.1 s' hs'⟩

/-! ## Earlier neighbours -/

/-- The reading of cell `(x, y)` right after its own step, for a validated catalog. -/
theorem getTile_after_step (tiles : List Tile) (draws : Nat → ℚ) (w h x y : Nat)
    (hv : validCatalog tiles) (hx : x < w) (hy : y < h) (s1 s2 : FillState)
    (hs1 : fillBefore tiles draws x y (start w h) = some s1)
    (hs2 : fillCell tiles draws x y s1 = some s2) :
    ∃ cands, possibleTiles s1.m tiles x y = some cands ∧
      ((selectScan cands (draws s1.used * totWeight cands) 0 = none ∧
          getTile s2.m x y = some none) ∨
        ∃ i t, selectScan cands (draws s1.used * totWeight cands) 0 = some i ∧
          cands[i]? = some t ∧ getTile s2.m x y = some (some t)) := by
  have hinv := fillBefore_baseInv tiles draws w h x y (Or.inl ⟨hx, by omega⟩) s1 hs1
  obtain ⟨hw', hh', _, cands, hp, hcase⟩ := fillCell_frame tiles draws x y s1 s2 hs2
  refine ⟨cands, hp, ?_⟩
  rcases hcase with ⟨hnone, hm⟩ | ⟨i, t, hsel, hit, _, hlt, htm⟩
  · left
    refine ⟨hnone, ?_⟩
    rw [hm]
    exact getTile_later w h x y s1 hinv x y hx hy (by unfold scanBefore; omega)
  · right
    refine ⟨i, t, hsel, hit, ?_⟩
    obtain ⟨t0, ht0, q, hq, rfl⟩ := possibleTiles_mem s1.m tiles x y cands hp t
      (List.getElem?_mem hit)
    have hf : t0.Filename ≠ "" := (hv t0 ht0).1
    have hb2 : inBounds s2.m x y :=
      inBounds_of_lt s2.m w h x y (hw'.trans hinv.1) (hh'.trans hinv.2.1) hx hy
    have hst : s2.m.tileMap[((x : Int) + (y : Int) * s2.m.width).toNat]? =
        some { t0 with rotation := q } := by
      rw [hw', htm, List.getElem?_set]
      simp [hlt]
    rw [getTile_of_stored s2.m x y _ hb2 hst]
    simp [hf]

/-- C15 (as amended): for a validated catalog, at the moment the fill loop processes
cell `(x, y)`, every cell before it in scan order, in particular the up neighbour
`(x, y-1)` when `y > 0` and the left neighbour `(x-1, y)` when `x > 0`, has already been
processed: it reads through `getTile` as it did right after its own step, and that is
either one of the candidates `possibleTiles` returned at its step, or `nil` when no
candidate was selected for it, as always when its candidate list was empty. -/
theorem earlier_cells_processed (tiles : List Tile) (draws : Nat → ℚ) (w h x y : Nat)
    (s : FillState) (hv : validCatalog tiles) (hx : x < w) (hy : y < h)
    (hs : fillBefore tiles draws x y (start w h) = some s) :
    ∀ x' y' : Nat, x' < w → y' < h → scanBefore x' y' x y →
      ∃ s1 s2 cands, fillBefore tiles draws x' y' (start w h) = some s1 ∧
        fillCell tiles draws x' y' s1 = some s2 ∧
        possibleTiles s1.m tiles x' y' = some cands ∧
        getTile s.m x' y' = getTile s2.m x' y' ∧
        (getTile s.m x' y' = some none ∨
          ∃ t ∈ cands, getTile s.m x' y' = some (some t)) ∧
        (cands = [] → getTile s.m x' y' = some none) := by
  intro x' y' hx' hy' hb
  obtain ⟨s1, hs1, _⟩ := fillBefore_total tiles draws w h x' y' hv (Or.inl ⟨hx', by omega⟩)
  obtain ⟨s2, hs2, _⟩ := fillBefore_total tiles draws w h x' (y' + 1) hv
    (Or.inl ⟨hx', by omega⟩)
  have hstep : fillCell tiles draws x' y' s1 = some s2 := by
    have := fillBefore_succ tiles draws x' y' (start w h)
    rw [hs1, hs2] at this
    exact this.symm
  obtain ⟨cands, hp, hcase⟩ := getTile_after_step tiles draws w h x' y' hv hx' hy' s1 s2 hs1 hstep
  have hread : getTile s.m x' y' = getTile s2.m x' y' :=
    getTile_persists tiles draws w h x y (Or.inl ⟨hx, by omega⟩) s hs x' y' s2 hx' hy' hb hs2
  refine ⟨s1, s2, cands, hs1, hstep, hp, hread, ?_, ?_⟩
  · rw [hread]
    rcases hcase with ⟨_, hg⟩ | ⟨i, t, _, hit, hg⟩
    · exact Or.inl hg
    · exact Or.inr ⟨t, List.getElem?_mem hit, hg⟩
  · intro hnil
    rw [hread]
    rcases hcase with ⟨_, hg⟩ | ⟨i, t, _, hit, _⟩
    · exact hg
    · rw [hnil] at hit
      simp at hit

theorem earlier_cells_processed_witness :
    validCatalog sampleCatalog ∧ 1 < 2 ∧ 0 < 2 ∧
    fillBefore sampleCatalog sampleDraws 1 0 (start 2 2) = some sampleState10 ∧
    (∀ x' y' : Nat, x' < 2 → y' < 2 → scanBefore x' y' 1 0 →
      ∃ s1 s2 cands, fillBefore sampleCatalog sampleDraws x' y' (start 2 2) = some s1 ∧
        fillCell sampleCatalog sampleDraws x' y' s1 = some s2 ∧
        possibleTiles s1.m sampleCatalog x' y' = some cands ∧
        getTile sampleState10.m x' y' = getTile s2.m x' y' ∧
        (getTile sampleState10.m x' y' = some none ∨
          ∃ t ∈ cands, getTile sampleState10.m x' y' = some (some t)) ∧
        (cands = [] → getTile sampleState10.m x' y' = some none)) :=
  ⟨by decide, by decide, by decide, sample_moment,
    earlier_cells_processed sampleCatalog sampleDraws 2 2 1 0 sampleState10 (by decide)
      (by decide) (by decide) sample_moment⟩

/-- C15 (as stated) fails: with the validated catalog A, B, when the fill of the 2×1
grid processes cell `(1, 0)` its left neighbour `(0, 0)` is unresolved, and when the
fill of the 1×2 grid processes cell `(0, 1)` its up neighbour `(0, 0)` is unresolved:
`getTile` returns `nil` for them. -/
theorem earlier_neighbour_unresolved :
    validCatalog [tileA, tileB] ∧
    (∃ s, fillBefore [tileA, tileB] (fun _ => 0) 1 0 (start 2 1) = some s ∧
      getTile s.m ((1 : Int) - 1) 0 = some none) ∧
    (∃ s, fillBefore [tileA, tileB] (fun _ => 0) 0 1 (start 1 2) = some s ∧
      getTile s.m 0 ((1 : Int) - 1) = some none) :=
  ⟨by decide, ⟨{ m := newMap 2 1, used := 1 }, by decide, by decide⟩,
    ⟨{ m := newMap 1 2, used := 1 }, by decide, by decide⟩⟩

/-! ## Commit frame -/

/-- C16 (as amended): commit frame. One step of the fill loop at an in-bounds cell
`(x, y)` keeps the dimensions and changes at most the slice entry at index
`x + y*width`: every other in-bounds cell has a different index below `width*height` and
reads the same through `getTile` before and after the step; when a candidate is selected
and the catalog's tiles have non-empty file names, `getTile` at `(x, y)` afterwards
returns exactly that candidate, and when none is selected the map is as it was.
Consequently a cell reads, at every later moment of the fill and at its end, as it did
right after its own step. -/
theorem commit_frame (tiles : List Tile) (draws : Nat → ℚ) (x y : Int) (s s' : FillState)
    (hf : ∀ t ∈ tiles, t.Filename ≠ "") (hb : inBounds s.m x y)
    (hc : fillCell tiles draws x y s = some s') :
    s'.m.width = s.m.width ∧ s'.m.height = s.m.height ∧
    s'.m.tileMap.length = s.m.tileMap.length ∧
    (∀ j : Nat, j ≠ (x + y * s.m.width).toNat → s'.m.tileMap[j]? = s.m.tileMap[j]?) ∧
    (∀ x' y' : Int, inBounds s.m x' y' → ¬ (x' = x ∧ y' = y) →
      x' + y' * s.m.width ≠ x + y * s.m.width ∧ 0 ≤ x' + y' * s.m.width ∧
      x' + y' * s.m.width < s.m.width * s.m.height ∧
      getTile s'.m x' y' = getTile s.m x' y') ∧
    (∀ cands i t, possibleTiles s.m tiles x y = some cands →
      selectScan cands (draws s.used * totWeight cands) 0 = some i → cands[i]? = some t →
      getTile s'.m x y = some (some t)) ∧
    (∀ cands, possibleTiles s.m tiles x y = some cands →
      selectScan cands (draws s.used * totWeight cands) 0 = none → s'.m = s.m) ∧
    (∀ (w h x0 y0 x1 y1 : Nat) (s0 s1 : FillState), x0 < w → y0 < h → isMoment w h x1 y1 →
      scanBefore x0 y0 x1 y1 →
      fillBefore tiles draws x0 (y0 + 1) (start w h) = some s0 →
      fillBefore tiles draws x1 y1 (start w h) = some s1 →
      getTile s1.m x0 y0 = getTile s0.m x0 y0) ∧
    (∀ (w h x0 y0 : Nat) (s0 s1 : FillState), x0 < w → y0 < h →
      fillBefore tiles draws x0 (y0 + 1) (start w h) = some s0 →
      fillLoop tiles draws (start w h) = some s1 →
      getTile s1.m x0 y0 = getTile s0.m x0 y0) := by
  obtain ⟨hw, hh, _, cands, hp, hcase⟩ := fillCell_frame tiles draws x y s s' hc
  have hlen := (fillCell_dims tiles draws x y s s' hc).2.2
  have hentry : ∀ j : Nat, j ≠ (x + y * s.m.width).toNat →
      s'.m.tileMap[j]? = s.m.tileMap[j]? := by
    intro j hj
    rcases hcase with ⟨_, hm⟩ | ⟨i, t, _, _, _, _, htm⟩
    · rw [hm]
    · rw [htm, List.getElem?_set, if_neg (fun h => hj h.symm)]
  obtain ⟨i0, i1⟩ := cell_index_bounds x y s.m.width s.m.height hb.1 hb.2.1 hb.2.2.1 hb.2.2.2
  refine ⟨hw, hh, hlen, hentry, ?_, ?_, ?_, ?_, ?_⟩
  · intro x' y' hb' hne
    obtain ⟨j0, j1⟩ := cell_index_bounds x' y' s.m.width s.m.height hb'.1 hb'.2.1 hb'.2.2.1
      hb'.2.2.2
    have hidx : x' + y' * s.m.width ≠ x + y * s.m.width := fun heq =>
      hne (cell_index_inj x' y' x y s.m.width hb'.1 hb'.2.1 hb.1 hb.2.1 heq)
    refine ⟨hidx, j0, j1, ?_⟩
    exact getTile_congr s.m s'.m x' y' hw hh hb' (hentry _ (by omega))
  · intro cands' i t hp' hsel hit
    rw [hp] at hp'
    simp only [Option.some.injEq] at hp'
    subst hp'
    rcases hcase with ⟨hnone, _⟩ | ⟨i', t', hsel', hit', _, hlt, htm⟩
    · rw [hnone] at hsel
      simp at hsel
    · rw [hsel'] at hsel
      simp only [Option.some.injEq] at hsel
      subst hsel
      rw [hit'] at hit
      simp only [Option.some.injEq] at hit
      subst hit
      obtain ⟨t0, ht0, q, _, rfl⟩ := possibleTiles_mem s.m tiles x y cands hp t'
        (List.getElem?_mem hit')
      have hb2 : inBounds s'.m x y := by
        unfold inBounds
        rw [hw, hh]
        exact hb
      have hst : s'.m.tileMap[(x + y * s'.m.width).toNat]? = some { t0 with rotation := q } := by
        rw [hw, htm, List.getElem?_set]
        simp [hlt]
      rw [getTile_of_stored s'.m x y _ hb2 hst]
      simp [hf t0 ht0]
  · intro cands' hp' hsel
    rw [hp] at hp'
    simp only [Option.some.injEq] at hp'
    subst hp'
    rcases hcase with ⟨_, hm⟩ | ⟨i', t', hsel', _⟩
    · exact hm
    · rw [hsel] at hsel'
      simp at hsel'
  · intro w h x0 y0 x1 y1 s0 s1 hx0 hy0 hm hbefore hs0 hs1
    exact getTile_persists tiles draws w h x1 y1 hm s1 hs1 x0 y0 s0 hx0 hy0 hbefore hs0
  · intro w h x0 y0 s0 s1 hx0 hy0 hs0 hs1
    rw [fillLoop_eq_fillBefore] at hs1
    exact getTile_persists tiles draws w h w 0 (Or.inr ⟨rfl, rfl⟩) s1 hs1 x0 y0 s0 hx0 hy0
      (Or.inl hx0) hs0

theorem commit_frame_witness :
    (∀ t ∈ sampleCatalog, t.Filename ≠ "") ∧ inBounds (start 2 2).m 0 0 ∧
    fillCell sampleCatalog sampleDraws 0 0 (start 2 2) = some sampleState01 ∧
    sampleState01.m.tileMap.length = (start 2 2).m.tileMap.length ∧
    (∀ j : Nat, j ≠ ((0 : Int) + 0 * (start 2 2).m.width).toNat →
      sampleState01.m.tileMap[j]? = (start 2 2).m.tileMap[j]?) := by
  have h := commit_frame sampleCatalog sampleDraws 0 0 (start 2 2) sampleState01 (by decide)
    (by decide) sample_first_step
  exact ⟨by decide, by decide, sample_first_step, h.2.2.1, h.2.2.2.1⟩

/-- C16 (as stated) fails for a candidate whose `Filename` is empty: on the 1×1 grid
the step selects the only candidate, `tileNameless`, and stores it in the cell, and
afterwards `getTile` returns `nil` there and not that candidate, because `getTile`
takes an empty `Filename` as the mark of an unresolved cell. -/
theorem nameless_candidate_reads_nil :
    inBounds (start 1 1).m 0 0 ∧
    possibleTiles (start 1 1).m [tileNameless] 0 0 = some [tileNameless] ∧
    selectScan [tileNameless] (sampleDraws 0 * totWeight [tileNameless]) 0 = some 0 ∧
    fillCell [tileNameless] sampleDraws 0 0 (start 1 1) =
      some { m := { tileMap := [tileNameless], width := 1, height := 1 }, used := 1 } ∧
    getTile { tileMap := [tileNameless], width := 1, height := 1 } 0 0 = some none ∧
    getTile { tileMap := [tileNameless], width := 1, height := 1 } 0 0 ≠
      some (some tileNameless) := by
  refine ⟨by decide, by decide, by decide!, by decide!, by decide, by decide⟩

/-! ## Zero weights -/

theorem totWeight_zero (cands : List Tile) (hw : ∀ t ∈ cands, t.Weight = 0) :
    totWeight cands = 0 := by
  induction cands with
  | nil => rfl
  | cons t ts ih =>
    simp only [totWeight]
    rw [hw t (List.mem_cons_self _ _), ih (fun t' h' => hw t' (List.mem_cons_of_mem _ h'))]
    norm_num

/-- C17: zero total weight. For a non-empty candidate list whose weights are all zero
and every draw, the total is 0, the remainder starts at 0 and is never negative after
any number of subtractions, so the scan selects no candidate and the step leaves the map
exactly as it was: no candidate, in particular not the first, is committed. -/
theorem zero_weights_select_nothing (tiles : List Tile) (draws : Nat → ℚ) (x y : Int)
    (s : FillState) (cands : List Tile) (hp : possibleTiles s.m tiles x y = some cands)
    (_hne : cands ≠ []) (hw : ∀ t ∈ cands, t.Weight = 0) :
    totWeight cands = 0 ∧ draws s.used * totWeight cands = 0 ∧
    (∀ k, ¬ (draws s.used * totWeight cands - prefixWeight cands k < 0)) ∧
    selectScan cands (draws s.used * totWeight cands) 0 = none ∧
    fillCell tiles draws x y s = some { m := s.m, used := s.used + 1 } ∧
    (∀ s', fillCell tiles draws x y s = some s' → s'.m = s.m ∧
      getTile s'.m x y = getTile s.m x y) := by
  have htot := totWeight_zero cands hw
  have hsel0 : draws s.used * totWeight cands = 0 := by rw [htot, mul_zero]
  have hscan : selectScan cands (draws s.used * totWeight cands) 0 = none :=
    selectScan_zero_weights cands _ 0 hw (by rw [hsel0])
  have hfc := fillCell_scan_none tiles draws x y s cands hp hscan
  refine ⟨htot, hsel0, ?_, hscan, hfc, ?_⟩
  · intro k
    have hk : prefixWeight cands k = 0 :=
      totWeight_zero _ (fun t ht => hw t (List.mem_of_mem_take ht))
    rw [hsel0, hk]
    norm_num
  · intro s' hs'
    rw [hfc] at hs'
    simp only [Option.some.injEq] at hs'
    rw [← hs']
    exact ⟨rfl, rfl⟩

theorem zero_weights_select_nothing_witness :
    possibleTiles (start 1 1).m [tileZ0] 0 0 = some [tileZ0, { tileZ0 with rotation := 1 }] ∧
    [tileZ0, { tileZ0 with rotation := 1 }] ≠ [] ∧
    (∀ t ∈ [tileZ0, { tileZ0 with rotation := 1 }], t.Weight = 0) ∧
    selectScan [tileZ0, { tileZ0 with rotation := 1 }]
      (sampleDraws (start 1 1).used * totWeight [tileZ0, { tileZ0 with rotation := 1 }]) 0 =
        none ∧
    fillCell [tileZ0] sampleDraws 0 0 (start 1 1) =
      some { m := (start 1 1).m, used := (start 1 1).used + 1 } := by
  have hw : ∀ t ∈ [tileZ0, { tileZ0 with rotation := 1 }], t.Weight = 0 := by
    intro t ht
    simp only [List.mem_cons, List.mem_singleton, List.not_mem_nil, or_false] at ht
    rcases ht with rfl | rfl <;> rfl
  have h := zero_weights_select_nothing [tileZ0] sampleDraws 0 0 (start 1 1)
    [tileZ0, { tileZ0 with rotation := 1 }] (by decide) (by decide) hw
  exact ⟨by decide, by decide, hw, h.2.2.2.1, h.2.2.2.2.1⟩

/-! ## Grid contents -/

/-- The zero tile, or a copy of a catalog tile at one of that tile's rotations. -/
theorem catalogCell_step (tiles : List Tile) (draws : Nat → ℚ) (x y : Int) (s s' : FillState)
    (hinv : ∀ c ∈ s.m.tileMap, c = Tile.zero ∨
      ∃ t ∈ tiles, ∃ r ∈ t.Rotations, c = { t with rotation := r })
    (hc : fillCell tiles draws x y s = some s') :
    ∀ c ∈ s'.m.tileMap, c = Tile.zero ∨
      ∃ t ∈ tiles, ∃ r ∈ t.Rotations, c = { t with rotation := r } := by
  obtain ⟨_, _, _, cands, hp, hcase⟩ := fillCell_frame tiles draws x y s s' hc
  rcases hcase with ⟨_, hm⟩ | ⟨i, t, _, hit, _, _, htm⟩
  · rw [hm]; exact hinv
  · intro c hcm
    rw [htm] at hcm
    rcases List.mem_or_eq_of_mem_set hcm with h1 | h1
    · exact hinv c h1
    · right
      rw [h1]
      exact possibleTiles_mem s.m tiles x y cands hp t (List.getElem?_mem hit)

/-- C18: grid contents invariant. At every moment the fill loop reaches from the
all-unresolved grid, and at its end, every stored cell is either the untouched zero
tile (empty `Filename`, unresolved) or a copy of some catalog tile, equal to it in every
field but `rotation`, whose rotation is a member of that tile's `Rotations`; the
boundary tile is never stored. -/
theorem grid_contents (tiles : List Tile) (draws : Nat → ℚ) (w h x y : Nat) (s : FillState)
    (hm : isMoment w h x y) (hs : fillBefore tiles draws x y (start w h) = some s) :
    (∀ c ∈ s.m.tileMap, c = Tile.zero ∨
      ∃ t ∈ tiles, ∃ r ∈ t.Rotations, c = { t with rotation := r }) ∧
    (∀ c ∈ s.m.tileMap, c ≠ empty) ∧
    (∀ x' y' : Nat, x' < w → y' < h → getTile s.m x' y' = some none ∨
      ∃ t ∈ tiles, ∃ r ∈ t.Rotations,
        getTile s.m x' y' = some (some { t with rotation := r })) ∧
    (Tile.zero.Filename = "" ∧ ∀ x' y' : Nat, x' < w → y' < h →
      s.m.tileMap[x' + y' * w]? = some Tile.zero → getTile s.m x' y' = some none) ∧
    (∀ s', fillLoop tiles draws (start w h) = some s' →
      ∀ c ∈ s'.m.tileMap, c = Tile.zero ∨
        ∃ t ∈ tiles, ∃ r ∈ t.Rotations, c = { t with rotation := r }) := by
  have hall : ∀ x y, isMoment w h x y → ∀ s,
      fillBefore tiles draws x y (start w h) = some s →
      ∀ c ∈ s.m.tileMap, c = Tile.zero ∨
        ∃ t ∈ tiles, ∃ r ∈ t.Rotations, c = { t with rotation := r } := by
    refine fillBefore_induct tiles draws w h
      (fun _ _ s => ∀ c ∈ s.m.tileMap, c = Tile.zero ∨
        ∃ t ∈ tiles, ∃ r ∈ t.Rotations, c = { t with rotation := r }) ?_ ?_ ?_
    · intro c hc
      left
      simp only [start, newMap] at hc
      exact List.eq_of_mem_replicate hc
    · intro x y s s' _ _ _ hinv hc
      exact catalogCell_step tiles draws x y s s' hinv hc
    · intro x s _ _ hinv
      exact hinv
  have hcells := hall x y hm s hs
  have hinv := fillBefore_baseInv tiles draws w h x y hm s hs
  have hread : ∀ x' y' : Nat, x' < w → y' < h → ∀ c, s.m.tileMap[x' + y' * w]? = some c →
      getTile s.m x' y' = if c.Filename = "" then some none else some (some c) := by
    intro x' y' hx' hy' c hc
    have hb := inBounds_of_lt s.m w h x' y' hinv.1 hinv.2.1 hx' hy'
    apply getTile_of_stored s.m x' y' c hb
    rw [hinv.1, int_index_toNat]
    exact hc
  refine ⟨hcells, ?_, ?_, ⟨rfl, ?_⟩, ?_⟩
  · intro c hc hce
    rcases hcells c hc with h1 | ⟨t, _, r, hr, h1⟩
    · rw [h1] at hce
      exact absurd hce (by decide)
    · rw [h1] at hce
      have : t.Rotations = [] := congrArg Tile.Rotations hce
      rw [this] at hr
      simp at hr
  · intro x' y' hx' hy'
    have hlt : x' + y' * w < s.m.tileMap.length := by
      rw [hinv.2.2.1]
      exact nat_index_lt x' y' w h hx' hy'
    have hget := List.getElem?_eq_getElem hlt
    rw [hread x' y' hx' hy' _ hget]
    rcases hcells _ (List.getElem?_mem hget) with h1 | ⟨t, ht, r, hr, h1⟩
    · left
      rw [h1]
      rfl
    · by_cases hfn : (s.m.tileMap[x' + y' * w]).Filename = ""
      · left
        rw [if_pos hfn]
      · right
        rw [if_neg hfn]
        exact ⟨t, ht, r, hr, by rw [h1]⟩
  · intro x' y' hx' hy' hz
    rw [hread x' y' hx' hy' _ hz]
    rfl
  · intro s' hs'
    rw [fillLoop_eq_fillBefore] at hs'
    exact hall w 0 (Or.inr ⟨rfl, rfl⟩) s' hs'

theorem grid_contents_witness :
    isMoment 2 2 1 0 ∧ fillBefore sampleCatalog sampleDraws 1 0 (start 2 2) = some sampleState10 ∧
    (∀ c ∈ sampleState10.m.tileMap, c = Tile.zero ∨
      ∃ t ∈ sampleCatalog, ∃ r ∈ t.Rotations, c = { t with rotation := r }) ∧
    (∀ c ∈ sampleState10.m.tileMap, c ≠ empty) := by
  have h := grid_contents sampleCatalog sampleDraws 2 2 1 0 sampleState10 (by decide)
    sample_moment
  exact ⟨by decide, sample_moment, h.1, h.2.1⟩

/-! ## The 1×1 grid -/

/-- On any map of width 1 and height 1 all four neighbours of `(0, 0)` are the boundary
tile, so a placed tile is admissible there iff all four of its edge codes are 0. -/
theorem admissible_unit_grid (m : Map) (hw : m.width = 1) (hh : m.height = 1) (c : Tile)
    (hg : goodTile c) : admissible m 0 0 c = true ↔ c.Edges = [0, 0, 0, 0] := by
  obtain ⟨fn, edges, rots, rot, wt⟩ := c
  obtain ⟨hE, h0, h3⟩ := hg
  simp only at hE h0 h3
  match edges, hE with
  | [e0, e1, e2, e3], _ =>
    have hu : getTile m 0 (0 - 1) = some (some empty) :=
      getTile_out m _ _ (by unfold inBounds; omega)
    have hd : getTile m 0 (0 + 1) = some (some empty) :=
      getTile_out m _ _ (by unfold inBounds; omega)
    have hl : getTile m (0 - 1) 0 = some (some empty) :=
      getTile_out m _ _ (by unfold inBounds; omega)
    have hr : getTile m (0 + 1) 0 = some (some empty) :=
      getTile_out m _ _ (by unfold inBounds; omega)
    simp only [admissible, hu, hd, hl, hr, neighbourOk,
      getEdge_empty up (by decide), getEdge_empty down (by decide),
      getEdge_empty left (by decide), getEdge_empty right (by decide),
      getEdge_of_edges up fn e0 e1 e2 e3 rots rot wt (by decide) h0 h3,
      getEdge_of_edges down fn e0 e1 e2 e3 rots rot wt (by decide) h0 h3,
      getEdge_of_edges left fn e0 e1 e2 e3 rots rot wt (by decide) h0 h3,
      getEdge_of_edges right fn e0 e1 e2 e3 rots rot wt (by decide) h0 h3]
    have hcases : rot = 0 ∨ rot = 1 ∨ rot = 2 ∨ rot = 3 := by omega
    rcases hcases with rfl | rfl | rfl | rfl <;>
      simp [up, down, left, right] <;> tauto

theorem possibleTiles_unit_grid (m : Map) (tiles : List Tile) (hw : m.width = 1)
    (hh : m.height = 1) (hc : goodCatalog tiles) :
    possibleTiles m tiles 0 0 = some (specPossibleTiles m tiles 0 0) := by
  have hu : getTile m 0 (0 - 1) = some (some empty) :=
    getTile_out m _ _ (by unfold inBounds; omega)
  have hd : getTile m 0 (0 + 1) = some (some empty) :=
    getTile_out m _ _ (by unfold inBounds; omega)
  have hl : getTile m (0 - 1) 0 = some (some empty) :=
    getTile_out m _ _ (by unfold inBounds; omega)
  have hr : getTile m (0 + 1) 0 = some (some empty) :=
    getTile_out m _ _ (by unfold inBounds; omega)
  have hg : ∀ n, some empty = some n → goodTile n := by
    intro n hn
    cases hn
    exact goodTile_empty
  unfold possibleTiles specPossibleTiles
  rw [hu, hl, hd, hr]
  simp only
  rw [tileLoop_eq (some empty) (some empty) (some empty) (some empty) hg hg hg hg tiles [] hc]
  have hfun : admissible m 0 0 = okAll (some empty) (some empty) (some empty) (some empty) := by
    funext c
    unfold admissible okAll
    rw [hu, hl, hd, hr]
  rw [hfun]
  simp

/-- C19: on a grid of width 1 and height 1, for a catalog whose tiles have exactly 4
edges and rotations in {0,1,2,3}, the candidate `(tile, r)` is returned by
`possibleTiles` at `(0, 0)` iff all four of the tile's edge codes are 0; admissibility
there does not depend on `r`, and `possibleTiles` is empty iff no catalog tile with a
non-empty `Rotations` list has all edges 0. -/
theorem unit_grid_candidates (m : Map) (tiles : List Tile) (hw : m.width = 1)
    (hh : m.height = 1) (hc : goodCatalog tiles) :
    possibleTiles m tiles 0 0 = some (specPossibleTiles m tiles 0 0) ∧
    (∀ t ∈ tiles, ∀ r ∈ t.Rotations,
      ({ t with rotation := r } ∈ specPossibleTiles m tiles 0 0 ↔ t.Edges = [0, 0, 0, 0])) ∧
    (∀ t : Tile, t.Edges.length = 4 → ∀ r r' : Int, 0 ≤ r → r ≤ 3 → 0 ≤ r' → r' ≤ 3 →
      (admissible m 0 0 { t with rotation := r } = true ↔ t.Edges = [0, 0, 0, 0]) ∧
      admissible m 0 0 { t with rotation := r } = admissible m 0 0 { t with rotation := r' }) ∧
    (possibleTiles m tiles 0 0 = some [] ↔
      ¬ ∃ t ∈ tiles, t.Rotations ≠ [] ∧ t.Edges = [0, 0, 0, 0]) := by
  have hpt := possibleTiles_unit_grid m tiles hw hh hc
  have hadm : ∀ t : Tile, t.Edges.length = 4 → ∀ r : Int, 0 ≤ r → r ≤ 3 →
      (admissible m 0 0 { t with rotation := r } = true ↔ t.Edges = [0, 0, 0, 0]) :=
    fun t hE r h0 h3 => admissible_unit_grid m hw hh { t with rotation := r } ⟨hE, h0, h3⟩
  refine ⟨hpt, ?_, ?_, ?_⟩
  · intro t ht r hr
    rw [mem_specPossibleTiles]
    constructor
    · rintro ⟨_, _, _, _, _, ha⟩
      exact (hadm t (hc t ht).1 r ((hc t ht).2 r hr).1 ((hc t ht).2 r hr).2).mp ha
    · intro hz
      exact ⟨t, ht, r, hr, rfl,
        (hadm t (hc t ht).1 r ((hc t ht).2 r hr).1 ((hc t ht).2 r hr).2).mpr hz⟩
  · intro t hE r r' h0 h3 h0' h3'
    refine ⟨hadm t hE r h0 h3, ?_⟩
    have h1 := hadm t hE r h0 h3
    have h2 := hadm t hE r' h0' h3'
    by_cases hz : t.Edges = [0, 0, 0, 0]
    · rw [h1.mpr hz, h2.mpr hz]
    · have e1 : admissible m 0 0 { t with rotation := r } = false := by
        rw [← Bool.not_eq_true]; exact fun h' => hz (h1.mp h')
      have e2 : admissible m 0 0 { t with rotation := r' } = false := by
        rw [← Bool.not_eq_true]; exact fun h' => hz (h2.mp h')
      rw [e1, e2]
  · rw [hpt]
    constructor
    · intro hnil
      simp only [Option.some.injEq] at hnil
      rintro ⟨t, ht, hrne, hz⟩
      obtain ⟨r, hr⟩ := List.exists_mem_of_ne_nil _ hrne
      have hmem : { t with rotation := r } ∈ specPossibleTiles m tiles 0 0 :=
        (mem_specPossibleTiles m tiles 0 0 _).mpr ⟨t, ht, r, hr, rfl,
          (hadm t (hc t ht).1 r ((hc t ht).2 r hr).1 ((hc t ht).2 r hr).2).mpr hz⟩
      rw [hnil] at hmem
      simp at hmem
    · intro hno
      congr 1
      apply List.eq_nil_iff_forall_not_mem.mpr
      intro c hcm
      obtain ⟨t, ht, r, hr, rfl, ha⟩ := (mem_specPossibleTiles m tiles 0 0 c).mp hcm
      apply hno
      exact ⟨t, ht, List.ne_nil_of_mem hr,
        (hadm t (hc t ht).1 r ((hc t ht).2 r hr).1 ((hc t ht).2 r hr).2).mp ha⟩

theorem unit_grid_candidates_witness :
    (newMap 1 1).width = 1 ∧ (newMap 1 1).height = 1 ∧ goodCatalog sampleCatalog ∧
    possibleTiles (newMap 1 1) sampleCatalog 0 0 =
      some (specPossibleTiles (newMap 1 1) sampleCatalog 0 0) ∧
    (∀ t ∈ sampleCatalog, ∀ r ∈ t.Rotations,
      ({ t with rotation := r } ∈ specPossibleTiles (newMap 1 1) sampleCatalog 0 0 ↔
        t.Edges = [0, 0, 0, 0])) := by
  have h := unit_grid_candidates (newMap 1 1) sampleCatalog rfl rfl (by decide)
  exact ⟨rfl, rfl, by decide, h.1, h.2.1⟩

/-! ## Catalog loading -/

/-- What the catalog loop has done to a tile it did not panic on. -/
theorem loadTile_spec (readable : String → Bool) (t t' : ConfigTile)
    (h : loadTile readable t = some t') :
    readable t.Filename = true ∧ t'.Rotations ≠ [] ∧
    (t.Weight ≠ Float64.nan → t'.Weight.gtZero = true) ∧
    (t.Weight = Float64.nan → t'.Weight = Float64.nan) ∧
    (t.Weight.leZero = true → t'.Weight = Float64.fin 1) ∧
    (t.Weight.gtZero = true → t'.Weight = t.Weight) ∧
    (t.Rotations = [] → t'.Rotations = [0, 1, 2, 3]) ∧
    (t.Rotations ≠ [] → t'.Rotations = t.Rotations) ∧
    t'.Filename = t.Filename ∧ t'.Edges = t.Edges ∧ t'.rotation = t.rotation := by
  obtain ⟨fn, edges, rots, rot, wt⟩ := t
  unfold loadTile at h
  by_cases hr : readable fn = true
  · simp only [hr, if_true, Option.some.injEq] at h
    subst h
    refine ⟨hr, ?_⟩
    by_cases hrot : rots = []
    · subst hrot
      cases wt with
      | nan => simp [Float64.leZero, Float64.gtZero]
      | negInf => simp [Float64.leZero, Float64.gtZero]
      | posInf => simp [Float64.leZero, Float64.gtZero]
      | fin q =>
        by_cases hq : q ≤ 0
        · have hq' : ¬ 0 < q := not_lt.mpr hq
          simp [Float64.leZero, Float64.gtZero, hq, hq']
        · have hq' : 0 < q := lt_of_not_ge hq
          simp [Float64.leZero, Float64.gtZero, hq, hq']
    · have hl : ¬ rots.length = 0 := fun h' => hrot (List.length_eq_zero.mp h')
      cases wt with
      | nan => simp [Float64.leZero, Float64.gtZero, hl, hrot]
      | negInf => simp [Float64.leZero, Float64.gtZero, hl, hrot]
      | posInf => simp [Float64.leZero, Float64.gtZero, hl, hrot]
      | fin q =>
        by_cases hq : q ≤ 0
        · have hq' : ¬ 0 < q := not_lt.mpr hq
          simp [Float64.leZero, Float64.gtZero, hq, hq', hl, hrot]
        · have hq' : 0 < q := lt_of_not_ge hq
          simp [Float64.leZero, Float64.gtZero, hq, hq', hl, hrot]
  · simp [hr] at h

theorem loadTile_isSome (readable : String → Bool) (t : ConfigTile)
    (h : readable t.Filename = true) : ∃ t', loadTile readable t = some t' := by
  unfold loadTile
  rw [if_pos h]
  exact ⟨_, rfl⟩

theorem loadTilesFrom_spec (readable : String → Bool) (ts : List ConfigTile) :
    ∀ ts', loadTilesFrom readable ts = some ts' →
      ts'.length = ts.length ∧
      ∀ (i : Nat) (t : ConfigTile), ts[i]? = some t →
        ∃ t', ts'[i]? = some t' ∧ loadTile readable t = some t' := by
  induction ts with
  | nil =>
    intro ts' h
    simp only [loadTilesFrom, Option.some.injEq] at h
    subst h
    exact ⟨rfl, by intro i t hi; simp at hi⟩
  | cons t ts ih =>
    intro ts' h
    rw [loadTilesFrom] at h
    cases h1 : loadTile readable t with
    | none => rw [h1] at h; simp at h
    | some t1 =>
      rw [h1] at h
      cases h2 : loadTilesFrom readable ts with
      | none => rw [h2] at h; simp at h
      | some ts1 =>
        rw [h2] at h
        simp only [Option.some.injEq] at h
        subst h
        obtain ⟨hlen, hall⟩ := ih ts1 h2
        refine ⟨by simp [hlen], ?_⟩
        intro i u hi
        cases i with
        | zero =>
          simp only [List.getElem?_cons_zero, Option.some.injEq] at hi
          subst hi
          exact ⟨t1, by simp, h1⟩
        | succ i =>
          simp only [List.getElem?_cons_succ] at hi
          obtain ⟨u', hu', hl⟩ := hall i u hi
          exact ⟨u', by simpa using hu', hl⟩

/-- The catalog loop panics exactly when the image file of some tile cannot be read. -/
theorem loadTilesFrom_none_iff (readable : String → Bool) (ts : List ConfigTile) :
    loadTilesFrom readable ts = none ↔ ∃ t ∈ ts, readable t.Filename = false := by
  induction ts with
  | nil => simp [loadTilesFrom]
  | cons t ts ih =>
    rw [loadTilesFrom]
    by_cases hr : readable t.Filename = true
    · obtain ⟨t', ht'⟩ := loadTile_isSome readable t hr
      rw [ht']
      cases h2 : loadTilesFrom readable ts with
      | none =>
        obtain ⟨u, hu, hf⟩ := ih.mp h2
        simp only [true_iff]
        exact ⟨u, List.mem_cons_of_mem _ hu, hf⟩
      | some ts1 =>
        constructor
        · intro h'
          exact Option.noConfusion h'
        · rintro ⟨u, hu, hf⟩
          rcases List.mem_cons.mp hu with rfl | hu'
          · rw [hr] at hf
            exact Bool.noConfusion hf
          · have := ih.mpr ⟨u, hu', hf⟩
            rw [h2] at this
            exact Option.noConfusion this
    · have hf : readable t.Filename = false := by
        cases hb : readable t.Filename
        · rfl
        · exact absurd hb hr
      have hnone : loadTile readable t = none := by
        unfold loadTile
        rw [hf]
        rfl
      rw [hnone]
      simp only [true_iff]
      exact ⟨t, List.mem_cons_self _ _, hf⟩

/-- What the catalog loop has done when it did not panic. -/
theorem loadTiles_spec (readable : String → Bool) (config loaded : Config)
    (h : loadTiles readable config = some loaded) :
    loaded.Tiles.length = config.Tiles.length ∧
    (∀ t' ∈ loaded.Tiles, t'.Rotations ≠ []) ∧
    ∀ (i : Nat) (t : ConfigTile), config.Tiles[i]? = some t →
      ∃ t', loaded.Tiles[i]? = some t' ∧
        (t.Weight ≠ Float64.nan → t'.Weight.gtZero = true) ∧
        (t.Weight = Float64.nan → t'.Weight = Float64.nan) ∧
        (t.Weight.leZero = true → t'.Weight = Float64.fin 1) ∧
        (t.Weight.gtZero = true → t'.Weight = t.Weight) ∧
        (t.Rotations = [] → t'.Rotations = [0, 1, 2, 3]) ∧
        (t.Rotations ≠ [] → t'.Rotations = t.Rotations) ∧
        t'.Filename = t.Filename ∧ t'.Edges = t.Edges ∧ t'.rotation = t.rotation := by
  unfold loadTiles at h
  cases hl : loadTilesFrom readable config.Tiles with
  | none => rw [hl] at h; simp at h
  | some ts =>
    rw [hl] at h
    simp only [Option.some.injEq] at h
    subst h
    obtain ⟨hlen, hall⟩ := loadTilesFrom_spec readable config.Tiles ts hl
    refine ⟨hlen, ?_, ?_⟩
    · intro t' ht'
      obtain ⟨i, hi⟩ := List.mem_iff_getElem?.mp ht'
      have hilt : i < config.Tiles.length := by
        have h1 := (List.getElem?_eq_some.mp hi).1
        simp only at h1
        omega
      obtain ⟨u', hu', hload⟩ := hall i _ (List.getElem?_eq_getElem hilt)
      simp only at hi
      rw [hi] at hu'
      simp only [Option.some.injEq] at hu'
      subst hu'
      exact (loadTile_spec readable _ _ hload).2.1
    · intro i t hi
      obtain ⟨t', ht', hload⟩ := hall i t hi
      exact ⟨t', ht', (loadTile_spec readable t t' hload).2.2⟩

/-- C11: the catalog loop of `main` leaves a NaN weight as it is, because `NaN <= 0`
is false: after loading, the tile `cfgNaN` does not have `Weight > 0`. For every other
tile the loop does what the claim says: the weight is `> 0` afterwards, a weight `<= 0`
has become 1 and a weight `> 0` is kept, an empty `Rotations` has become `[0,1,2,3]`
and a non-empty one is kept, and `Filename` and `Edges` are as they were. -/
theorem nan_weight_kept :
    loadTiles (fun _ => true) { Tiles := [cfgNaN] } = some { Tiles := [cfgNaN] } ∧
    cfgNaN.Weight.leZero = false ∧ cfgNaN.Weight.gtZero = false ∧
    (∀ (readable : String → Bool) (config loaded : Config),
      loadTiles readable config = some loaded →
      loaded.Tiles.length = config.Tiles.length ∧
      (∀ t' ∈ loaded.Tiles, t'.Rotations ≠ []) ∧
      ∀ (i : Nat) (t : ConfigTile), config.Tiles[i]? = some t →
        ∃ t', loaded.Tiles[i]? = some t' ∧
          (t.Weight ≠ Float64.nan → t'.Weight.gtZero = true) ∧
          (t.Weight = Float64.nan → t'.Weight = Float64.nan) ∧
          (t.Weight.leZero = true → t'.Weight = Float64.fin 1) ∧
          (t.Weight.gtZero = true → t'.Weight = t.Weight) ∧
          (t.Rotations = [] → t'.Rotations = [0, 1, 2, 3]) ∧
          (t.Rotations ≠ [] → t'.Rotations = t.Rotations) ∧
          t'.Filename = t.Filename ∧ t'.Edges = t.Edges ∧ t'.rotation = t.rotation) :=
  ⟨by decide, rfl, rfl, loadTiles_spec⟩

theorem load_sample :
    loadTiles (fun _ => true) { Tiles := [cfgRaw, cfgOdd] } =
      some { Tiles := [{ cfgRaw with Weight := Float64.fin 1, Rotations := [0, 1, 2, 3] },
                       cfgOdd] } := by
  decide!

/-! ## Tiles no validation would accept -/

theorem getEdge_wide (s r : Int) (fn : String) (extra rots : List Int) (wt : ℚ)
    (hs : isSide s) (h0 : 0 ≤ r) (h1 : r < 2 ^ 63) (h4 : r % 4 = 0) :
    getEdge s
      { Filename := fn, Edges := 0 :: 0 :: 0 :: 0 :: extra, Rotations := rots, rotation := r,
        Weight := wt } = some 0 := by
  obtain ⟨hs0, hs3⟩ := hs
  have hwrap : wrapInt (s + r) = s + r := by
    unfold wrapInt
    omega
  unfold getEdge index
  simp only
  rw [hwrap, Int.tmod_eq_emod (by omega) (by norm_num)]
  have hmod : (s + r) % 4 = s := by omega
  rw [hmod, if_neg (by omega)]
  have hcases : s = 0 ∨ s = 1 ∨ s = 2 ∨ s = 3 := by omega
  rcases hcases with rfl | rfl | rfl | rfl <;> simp

theorem admitted_wide (r : Int) (fn : String) (extra rots : List Int) (wt : ℚ)
    (h0 : 0 ≤ r) (h1 : r < 2 ^ 63) (h4 : r % 4 = 0) :
    admitted (some empty) (some empty) (some empty) (some empty)
      { Filename := fn, Edges := 0 :: 0 :: 0 :: 0 :: extra, Rotations := rots, rotation := r,
        Weight := wt } = some true := by
  simp [admitted, edgeMismatch, getEdge_wide up r fn extra rots wt (by decide) h0 h1 h4,
    getEdge_wide down r fn extra rots wt (by decide) h0 h1 h4,
    getEdge_wide left r fn extra rots wt (by decide) h0 h1 h4,
    getEdge_wide right r fn extra rots wt (by decide) h0 h1 h4,
    getEdge_empty up (by decide), getEdge_empty down (by decide),
    getEdge_empty left (by decide), getEdge_empty right (by decide)]

theorem possibleTiles_wide (r : Int) (fn : String) (extra : List Int) (q : Int) (wt : ℚ)
    (h0 : 0 ≤ r) (h1 : r < 2 ^ 63) (h4 : r % 4 = 0) :
    possibleTiles (newMap 1 1)
      [{ Filename := fn, Edges := 0 :: 0 :: 0 :: 0 :: extra, Rotations := [r], rotation := q,
         Weight := wt }] 0 0 =
      some [{ Filename := fn, Edges := 0 :: 0 :: 0 :: 0 :: extra, Rotations := [r],
              rotation := r, Weight := wt }] := by
  have hu : getTile (newMap 1 1) 0 (0 - 1) = some (some empty) := by decide
  have hd : getTile (newMap 1 1) 0 (0 + 1) = some (some empty) := by decide
  have hl : getTile (newMap 1 1) (0 - 1) 0 = some (some empty) := by decide
  have hr : getTile (newMap 1 1) (0 + 1) 0 = some (some empty) := by decide
  unfold possibleTiles
  rw [hu, hl, hd, hr]
  simp only [tileLoop, rotationLoop, admitted_wide r fn extra [r] wt h0 h1 h4, List.nil_append]

theorem fillCell_wide (fn : String) (extra : List Int) (r q : Int) (wt : ℚ)
    (draws : Nat → ℚ) (hwt : 0 < wt) (h0 : 0 ≤ r) (h1 : r < 2 ^ 63) (h4 : r % 4 = 0)
    (hd1 : draws 0 < 1) :
    fillCell [wideTile fn extra r q wt] draws 0 0 { m := newMap 1 1, used := 0 } =
      some { m := { tileMap := [wideTile fn extra r r wt], width := 1, height := 1 },
             used := 1 } := by
  have hp : possibleTiles (newMap 1 1) [wideTile fn extra r q wt] 0 0 =
      some [wideTile fn extra r r wt] := possibleTiles_wide r fn extra q wt h0 h1 h4
  have hneg : draws 0 * (wt + 0) - wt < 0 := by nlinarith
  have hsel : selectScan [wideTile fn extra r r wt]
      (draws 0 * totWeight [wideTile fn extra r r wt]) 0 = some 0 := by
    simp only [selectScan, totWeight, wideTile]
    rw [if_pos hneg]
  simp only [fillCell, hp, hsel]
  rfl

/-- C12 (as amended): the catalog loop of `main` checks nothing about `Edges` or
`Rotations`. It panics exactly when the image file of some tile cannot be opened and
decoded; otherwise every tile of the raw list is kept, with its `Filename` and `Edges`
as they were and its `Rotations` as they were when non-empty, whatever the number of
edge codes and whatever the rotation steps. Such a tile can be enumerated by
`possibleTiles` and committed to the grid: a tile of weight 1 whose first four edge
codes are 0, with any number of further edge codes, and whose only rotation step is any
non-negative multiple of 4 is loaded as it is, enumerated at the cell of the 1×1 grid
and committed there by the fill, for every draw in `[0,1)`. -/
theorem no_catalog_validation (readable : String → Bool) (config : Config) (fn : String)
    (extra : List Int) (r q : Int) (draws : Nat → ℚ)
    (hall : ∀ t ∈ config.Tiles, readable t.Filename = true) (hfn : readable fn = true)
    (h0 : 0 ≤ r) (h1 : r < 2 ^ 63) (h4 : r % 4 = 0) (hd1 : draws 0 < 1) :
    (∀ c : Config, loadTiles readable c = none ↔
      ∃ t ∈ c.Tiles, readable t.Filename = false) ∧
    (∃ loaded, loadTiles readable config = some loaded ∧
      loaded.Tiles.length = config.Tiles.length ∧
      ∀ (i : Nat) (t : ConfigTile), config.Tiles[i]? = some t →
        ∃ t', loaded.Tiles[i]? = some t' ∧ t'.Filename = t.Filename ∧ t'.Edges = t.Edges ∧
          (t.Rotations ≠ [] → t'.Rotations = t.Rotations)) ∧
    loadTiles readable { Tiles := [cfgWide fn extra r q] } =
      some { Tiles := [cfgWide fn extra r q] } ∧
    (cfgWide fn extra r q).toTile = some (wideTile fn extra r q 1) ∧
    (wideTile fn extra r q 1).Edges.length = 4 + extra.length ∧
    possibleTiles (start 1 1).m [wideTile fn extra r q 1] 0 0 =
      some [wideTile fn extra r r 1] ∧
    fillLoop [wideTile fn extra r q 1] draws (start 1 1) =
      some { m := { tileMap := [wideTile fn extra r r 1], width := 1, height := 1 },
             used := 1 } := by
  have hnone : ∀ c : Config, loadTiles readable c = none ↔
      ∃ t ∈ c.Tiles, readable t.Filename = false := by
    intro c
    rw [← loadTilesFrom_none_iff]
    unfold loadTiles
    cases loadTilesFrom readable c.Tiles <;> simp
  refine ⟨hnone, ?_, ?_, rfl, ?_, ?_, ?_⟩
  · cases hl : loadTiles readable config with
    | none =>
      obtain ⟨t, ht, hf⟩ := (hnone config).mp hl
      rw [hall t ht] at hf
      exact Bool.noConfusion hf
    | some loaded =>
      obtain ⟨hlen, _, hspec⟩ := loadTiles_spec readable config loaded hl
      refine ⟨loaded, rfl, hlen, ?_⟩
      intro i t hi
      obtain ⟨t', ht', hs⟩ := hspec i t hi
      exact ⟨t', ht', hs.2.2.2.2.2.2.1, hs.2.2.2.2.2.2.2.1, hs.2.2.2.2.2.1⟩
  · simp [loadTiles, loadTilesFrom, loadTile, cfgWide, hfn, Float64.leZero]
  · simp [wideTile]
    omega
  · exact possibleTiles_wide r fn extra q 1 h0 h1 h4
  · rw [fillLoop_1x1]
    exact fillCell_wide fn extra r q 1 draws (by norm_num) h0 h1 h4 hd1

theorem no_catalog_validation_witness :
    (∀ t ∈ ({ Tiles := [cfgOdd] } : Config).Tiles, (fun _ => true) t.Filename = true) ∧
    (0 : Int) ≤ 8 ∧ (8 : Int) < 2 ^ 63 ∧ (8 : Int) % 4 = 0 ∧ sampleDraws 0 < 1 ∧
    loadTiles (fun _ => true) { Tiles := [cfgWide "W" [7, 7] 8 0] } =
      some { Tiles := [cfgWide "W" [7, 7] 8 0] } ∧
    (wideTile "W" [7, 7] 8 0 1).Edges.length = 4 + [(7 : Int), 7].length ∧
    possibleTiles (start 1 1).m [wideTile "W" [7, 7] 8 0 1] 0 0 =
      some [wideTile "W" [7, 7] 8 8 1] ∧
    fillLoop [wideTile "W" [7, 7] 8 0 1] sampleDraws (start 1 1) =
      some { m := { tileMap := [wideTile "W" [7, 7] 8 8 1], width := 1, height := 1 },
             used := 1 } := by
  have hd : sampleDraws 0 < 1 := by norm_num [sampleDraws]
  have hall : ∀ t ∈ ({ Tiles := [cfgOdd] } : Config).Tiles,
      (fun _ => true) t.Filename = true := fun _ _ => rfl
  have h := no_catalog_validation (fun _ => true) { Tiles := [cfgOdd] } "W" [7, 7] 8 0
    sampleDraws hall rfl (by norm_num) (by norm_num) (by norm_num) hd
  exact ⟨hall, by norm_num, by norm_num, by norm_num, hd, h.2.2.1, h.2.2.2.2.1,
    h.2.2.2.2.2.1, h.2.2.2.2.2.2⟩

/-- C12 (as stated) fails: `cfgOdd` has five edge codes and the rotation step 4; with
its image file readable the catalog loop keeps it as it is, `possibleTiles` enumerates
it at the cell of the 1×1 grid and the fill commits it there. -/
theorem invalid_tile_committed :
    cfgOdd.Edges.length ≠ 4 ∧ (∃ r ∈ cfgOdd.Rotations, ¬ (0 ≤ r ∧ r ≤ 3)) ∧
    loadTiles (fun _ => true) { Tiles := [cfgOdd] } = some { Tiles := [cfgOdd] } ∧
    cfgOdd.toTile = some tileOdd ∧
    possibleTiles (start 1 1).m [tileOdd] 0 0 = some [{ tileOdd with rotation := 4 }] ∧
    fillLoop [tileOdd] sampleDraws (start 1 1) =
      some { m := { tileMap := [{ tileOdd with rotation := 4 }], width := 1, height := 1 },
             used := 1 } := by
  refine ⟨by decide, ⟨4, by decide, by decide⟩, by decide!, by decide!, by decide, by decide!⟩

end Tiletoy
